import Mathlib

/-!
Verification of the Kartana Aozora-Bunko compiler core.

This file gives a shallow embedding, in Lean 4, of the compilation
pipeline implemented in crates/aozora_parser/src (tokenizer.rs,
parser.rs, block_parser.rs, linter.rs, xhtml_generator.rs) together
with the command recogniser (aozora_parser/tokenizer/command.rs).
Strings are embedded as List Char (Rust iterates chars, i.e. Unicode
scalar values, and all spans are measured in characters); machine
integers that can only grow with the input (positions, counters)
are embedded as Nat; u32 parsing checks the u32 bound explicitly.
Loops that advance a cursor are embedded with an explicit fuel
parameter that strictly decreases; every iteration of the source
loops consumes at least one character resp. token, so fuel equal to
the input length makes the embedding exact (the fuel-0 branch
coincides with the empty-input branch).
-/

set_option maxHeartbeats 1600000
set_option maxRecDepth 100000

namespace Kartana

/-- Span over the source, measured in characters, half open.
The Rust field named end is called stop here because end is a
reserved word in Lean. -/
structure Span where
  start : Nat
  stop : Nat
deriving DecidableEq, Repr

/-- Embeds Span::merge: minimum start to maximum end. -/
def Span.merge (a b : Span) : Span :=
  ⟨min a.start b.start, max a.stop b.stop⟩

/-- Embeds Span::default (both fields zero). -/
def Span.default : Span := ⟨0, 0⟩

/-- Embeds tokenizer.rs is_hiragana: U+3040 to U+309F. -/
def is_hiragana (c : Char) : Bool :=
  0x3040 ≤ c.toNat && c.toNat ≤ 0x309F

/-- Embeds tokenizer.rs is_katakana: U+30A0 to U+30FF. -/
def is_katakana (c : Char) : Bool :=
  0x30A0 ≤ c.toNat && c.toNat ≤ 0x30FF

/-- Embeds tokenizer.rs is_kanji: the five iteration marks, CJK
unified ideographs, extension A, compatibility ideographs, and
extension B. -/
def is_kanji (c : Char) : Bool :=
  c = '々' || c = '〆' || c = '〇' || c = 'ヶ' || c = '仝' ||
  (0x4E00 ≤ c.toNat && c.toNat ≤ 0x9FFF) ||
  (0x3400 ≤ c.toNat && c.toNat ≤ 0x4DBF) ||
  (0xF900 ≤ c.toNat && c.toNat ≤ 0xFAFF) ||
  (0x20000 ≤ c.toNat && c.toNat ≤ 0x2A6DF)

/-- Embeds tokenizer.rs is_other: not a script character and not one
of the delimiters handled by the main scanner loop. -/
def is_other (c : Char) : Bool :=
  !is_kanji c && !is_hiragana c && !is_katakana c &&
  c ≠ '《' && c ≠ '》' && c ≠ '｜' && c ≠ '\n' && c ≠ '［' && c ≠ '／'

/-- Embeds Rust char::is_whitespace, the Unicode White_Space
property (used by the command-body loop of the scanner). -/
def is_whitespace (c : Char) : Bool :=
  let n := c.toNat
  (0x09 ≤ n && n ≤ 0x0D) || n = 0x20 || n = 0x85 || n = 0xA0 ||
  n = 0x1680 || (0x2000 ≤ n && n ≤ 0x200A) || n = 0x2028 ||
  n = 0x2029 || n = 0x202F || n = 0x205F || n = 0x3000

inductive TextKind where
  | Hiragana
  | Katakana
  | Kanji
  | Other
deriving DecidableEq, Repr

structure TextToken where
  content : List Char
  kind : TextKind
  span : Span
deriving DecidableEq, Repr

structure CommandToken where
  content : List Char
  span : Span
deriving DecidableEq, Repr

/-- Embeds enum AozoraToken of tokenizer.rs. -/
inductive AozoraToken where
  | Text (t : TextToken)
  | Ruby (content : List Char) (span : Span)
  | RubySeparator (span : Span)
  | Command (c : CommandToken)
  | Newline (span : Span)
  | Odoriji (span : Span)
  | DakutenOdoriji (span : Span)
deriving DecidableEq, Repr

inductive TokenizeError where
  | UnclosedCommand (span : Span)
deriving DecidableEq, Repr

/-- The character class of a ruby gloss body: anything except the
closing 》 (the take-while predicate of the gloss loop). -/
def notRubyClose (x : Char) : Bool := x ≠ '》'

/-- The character class of a command body: anything that is neither
the closing ］ nor whitespace (the take-while predicate of the
command loop; the loop stops at the first character outside it and
then decides between token and error). -/
def commandBodyChar (x : Char) : Bool := !(x = '］' || is_whitespace x)

/-- Prepends a token to the token list of a successful result and
propagates errors; this is the shape of every push in the scanner
loop of parse_aozora. -/
def consTok (t : AozoraToken) :
    Except TokenizeError (List AozoraToken) →
    Except TokenizeError (List AozoraToken)
  | .error e => .error e
  | .ok ts => .ok (t :: ts)

/-- Builds one maximal same-class text run: the current character
followed by the characters of rest satisfying p, together with the
remaining input and the advanced position.  This factors the four
identical run-accumulation loops of parse_aozora. -/
def textRun (k : TextKind) (p : Char → Bool) (c : Char)
    (rest : List Char) (pos : Nat) :
    AozoraToken × List Char × Nat :=
  let run := rest.takeWhile p
  (.Text ⟨c :: run, k, ⟨pos, pos + 1 + run.length⟩⟩,
   rest.drop run.length, pos + 1 + run.length)

/-- Embeds the main scanner loop of parse_aozora (tokenizer.rs).
The branches follow the Rust match arm for arm.  Note two points of
the source that the embedding reproduces faithfully: (1) the ruby
loop consumes the closing 》, so the gloss span ends one past it,
while the command arm pushes its token with span end equal to the
position of the closing ］ and then breaks without advancing the
cursor, so the ］ is left in the input; (2) a ［ that is not
followed by ＃ falls through to the default arm and starts an
Other-class run. -/
def tokenizeAux : Nat → List Char → Nat →
    Except TokenizeError (List AozoraToken)
  | 0, _, _ => .ok []
  | _ + 1, [], _ => .ok []
  | fuel + 1, c :: rest, pos =>
    if c = '《' then
      let content := rest.takeWhile notRubyClose
      match rest.drop content.length with
      | _ :: rest2 =>
          consTok (.Ruby content ⟨pos, pos + content.length + 2⟩)
            (tokenizeAux fuel rest2 (pos + content.length + 2))
      | [] =>
          consTok (.Ruby content ⟨pos, pos + content.length + 1⟩)
            (tokenizeAux fuel [] (pos + content.length + 1))
    else if c = '｜' then
      consTok (.RubySeparator ⟨pos, pos + 1⟩)
        (tokenizeAux fuel rest (pos + 1))
    else if c = '\n' then
      consTok (.Newline ⟨pos, pos + 1⟩)
        (tokenizeAux fuel rest (pos + 1))
    else if c = '／' then
      match rest with
      | '″' :: '＼' :: rest2 =>
          consTok (.DakutenOdoriji ⟨pos, pos + 3⟩)
            (tokenizeAux fuel rest2 (pos + 3))
      | '＼' :: rest2 =>
          consTok (.Odoriji ⟨pos, pos + 2⟩)
            (tokenizeAux fuel rest2 (pos + 2))
      | _ =>
          let (t, rest2, pos2) := textRun .Other is_other c rest pos
          consTok t (tokenizeAux fuel rest2 pos2)
    else if c = '［' then
      match rest with
      | '＃' :: rest2 =>
          let body := rest2.takeWhile commandBodyChar
          match rest2.drop body.length with
          | [] =>
              .error (.UnclosedCommand ⟨pos, pos + 2 + body.length⟩)
          | x :: rest3 =>
              if x = '］' then
                consTok (.Command ⟨body, ⟨pos, pos + 2 + body.length⟩⟩)
                  (tokenizeAux fuel (x :: rest3) (pos + 2 + body.length))
              else
                .error (.UnclosedCommand ⟨pos, pos + 2 + body.length⟩)
      | _ =>
          let (t, rest2, pos2) := textRun .Other is_other c rest pos
          consTok t (tokenizeAux fuel rest2 pos2)
    else if is_kanji c then
      let (t, rest2, pos2) := textRun .Kanji is_kanji c rest pos
      consTok t (tokenizeAux fuel rest2 pos2)
    else if is_hiragana c then
      let (t, rest2, pos2) := textRun .Hiragana is_hiragana c rest pos
      consTok t (tokenizeAux fuel rest2 pos2)
    else if is_katakana c then
      let (t, rest2, pos2) := textRun .Katakana is_katakana c rest pos
      consTok t (tokenizeAux fuel rest2 pos2)
    else
      let (t, rest2, pos2) := textRun .Other is_other c rest pos
      consTok t (tokenizeAux fuel rest2 pos2)

/-- Embeds pub fn parse_aozora of tokenizer.rs.  Every loop
iteration consumes at least one character, so fuel equal to the
input length is exact. -/
def parse_aozora (text : List Char) :
    Except TokenizeError (List AozoraToken) :=
  tokenizeAux text.length text 0

/-!
Command recogniser, embedded from aozora_parser/tokenizer/command.rs
(the command module of the tokenizer).  The regular expressions of
parse_command are embedded as explicit matchers; alternations and
optional groups are tried in the same order as the regex engine
(leftmost alternative first, an optional group present before
absent, and the lazy dot-plus of the reference form taking the
shortest content first).  The dot of the regex does not match a
newline, which the reference matcher checks explicitly.
-/

inductive MidashiSize where
  | Large
  | Middle
  | Small
deriving DecidableEq, Repr

inductive MidashiType where
  | Normal
  | Dogyo
  | Mado
deriving DecidableEq, Repr

inductive Bouten where
  | Sirogoma
  | BlackCircle
  | WhiteCircle
  | BlackTriangle
  | WhiteTriangle
  | DoubleCircle
  | Hebinome
  | Cross
deriving DecidableEq, Repr

inductive Bousen where
  | Bousen
  | Double
  | Chain
  | Dashed
  | Wavy
deriving DecidableEq, Repr

structure Midashi where
  size : MidashiSize
  kind : MidashiType
deriving DecidableEq, Repr

/-- Embeds struct Alignment: is_upper true is a leading indent
(jisage), false is a trailing alignment (chitsuki). -/
structure Alignment where
  is_upper : Bool
  space : Nat
deriving DecidableEq, Repr

inductive CommandBegin where
  | Midashi (m : Midashi)
  | Alignment (a : Alignment)
  | Bouten (b : Bouten)
  | Bousen (b : Bousen)
  | Bold
  | Italic
  | Kakomikei
  | Yokogumi
  | Jitsume (n : Nat)
deriving DecidableEq, Repr

inductive CommandEnd where
  | Midashi (m : Midashi)
  | Alignment
  | Bouten
  | Bousen
  | Bold
  | Italic
  | Kakomikei
  | Yokogumi
  | Jitsume
deriving DecidableEq, Repr

inductive SingleCommand where
  | Midashi (mc : Midashi × List Char)
  | Alignment (a : Alignment)
  | Kaicho
  | Kaimihiraki
  | Kaipage
  | Kaidan
  | Bouten (bc : Bouten × List Char)
  | Bousen (bc : Bousen × List Char)
  | Bold (s : List Char)
  | Italic (s : List Char)
deriving DecidableEq, Repr

inductive Command where
  | CommandBegin (b : CommandBegin)
  | SingleCommand (s : SingleCommand)
  | CommandEnd (e : CommandEnd)
deriving DecidableEq, Repr

/-- Embeds full_width_digit_to_u32: full-width digits are shifted
down to ASCII and the result is parsed as a u32.  The parse of a
digit-only string succeeds exactly when it is nonempty and its value
fits in a u32; the u32 bound is kept explicit. -/
def full_width_digit_to_u32 (input : List Char) : Option Nat :=
  let smallified := input.map (fun c =>
    if '０' ≤ c && c ≤ '９'
    then Char.ofNat (c.toNat - '０'.toNat + '0'.toNat) else c)
  if smallified ≠ [] && smallified.all (fun c => '0' ≤ c && c ≤ '9')
  then
    let v := smallified.foldl
      (fun acc c => acc * 10 + (c.toNat - '0'.toNat)) 0
    if v ≤ 4294967295 then some v else none
  else none

/-- Matches (大|中|小) followed by exactly the given literal suffix;
used for the anchored tails of the heading regexes. -/
def matchSizeTail (suffix : List Char) : List Char → Option MidashiSize
  | c :: rest =>
      if c = '大' then if rest = suffix then some .Large else none
      else if c = '中' then if rest = suffix then some .Middle else none
      else if c = '小' then if rest = suffix then some .Small else none
      else none
  | [] => none

/-- Matches (同行|窓)?(大|中|小) followed by the literal suffix.
The optional group is tried with 同行, then 窓, then absent, in
regex order. -/
def matchTypeSizeTail (suffix : List Char) (s : List Char) :
    Option (MidashiType × MidashiSize) :=
  (match s with
   | '同' :: '行' :: rest =>
       (matchSizeTail suffix rest).map (fun sz => (MidashiType.Dogyo, sz))
   | _ => none) <|>
  (match s with
   | '窓' :: rest =>
       (matchSizeTail suffix rest).map (fun sz => (MidashiType.Mado, sz))
   | _ => none) <|>
  (matchSizeTail suffix s).map (fun sz => (MidashiType.Normal, sz))

/-- The literal tail 見出し of the begin and reference regexes. -/
def midashiTail : List Char := "見出し".toList

/-- The literal tail 見出し終わり of the end regex. -/
def midashiOwariTail : List Char := "見出し終わり".toList

/-- Embeds re_begin, the anchored regex for a heading block begin:
an optional ここから, an optional kind, a size, then 見出し. -/
def re_begin_match (s : List Char) : Option (MidashiType × MidashiSize) :=
  (match s with
   | 'こ' :: 'こ' :: 'か' :: 'ら' :: rest => matchTypeSizeTail midashiTail rest
   | _ => none) <|>
  matchTypeSizeTail midashiTail s

/-- Embeds re_end, the anchored regex for a heading block end:
an optional ここで, an optional kind, a size, then 見出し終わり. -/
def re_end_match (s : List Char) : Option (MidashiType × MidashiSize) :=
  (match s with
   | 'こ' :: 'こ' :: 'で' :: rest => matchTypeSizeTail midashiOwariTail rest
   | _ => none) <|>
  matchTypeSizeTail midashiOwariTail s

/-- Searches for the lazy split of the reference regex: the shortest
nonempty content (acc holds its reversal, and the dot excludes a
newline) followed by 」は and the kind-size-見出し tail. -/
def refSearch (acc : List Char) :
    List Char → Option (List Char × MidashiType × MidashiSize)
  | [] => none
  | c :: rest =>
    (match c, rest with
     | '」', 'は' :: rest2 =>
         if acc ≠ [] && acc.all (fun x => x ≠ '\n') then
           (matchTypeSizeTail midashiTail rest2).map
             (fun ts => (acc.reverse, ts))
         else none
     | _, _ => none) <|>
    refSearch (c :: acc) rest

/-- Embeds re_ref, the anchored regex for a reference-form heading:
「content」は with an optional kind, a size, and 見出し. -/
def re_ref_match (s : List Char) :
    Option (List Char × MidashiType × MidashiSize) :=
  match s with
  | '「' :: rest => refSearch [] rest
  | _ => none

/-- Tests membership of the full-width digit class of re_jisage. -/
def isFullWidthDigit (c : Char) : Bool := '０' ≤ c && c ≤ '９'

/-- Embeds re_jisage: one or more full-width digits then 字下げ,
anchored.  Returns the digit group. -/
def re_jisage_match (s : List Char) : Option (List Char) :=
  let ds := s.takeWhile isFullWidthDigit
  if ds ≠ [] && s.drop ds.length = "字下げ".toList then some ds else none

/-- Embeds re_jisage_begin: ここから then digits then 字下げ,
anchored.  Returns the digit group. -/
def re_jisage_begin_match (s : List Char) : Option (List Char) :=
  match s with
  | 'こ' :: 'こ' :: 'か' :: 'ら' :: rest => re_jisage_match rest
  | _ => none

/-- Embeds the final literal match of parse_command. -/
def literalCommandMatch (s : List Char) : Option Command :=
  if s = "改丁".toList then some (.SingleCommand .Kaicho)
  else if s = "改ページ".toList then some (.SingleCommand .Kaipage)
  else if s = "改見開き".toList then some (.SingleCommand .Kaimihiraki)
  else if s = "改段".toList then some (.SingleCommand .Kaidan)
  else if s = "ここで字下げ終わり".toList then some (.CommandEnd .Alignment)
  else none

/-- Embeds pub fn parse_command: the regexes are tried in source
order (reference, block begin, block end, one-line indent, block
indent begin) and anything left over goes to the literal match.
When a digit group fails the u32 parse, control falls through to
the literal match, exactly as in the Rust if-else chain.  There is
no fallback constructor: an unrecognised body yields none. -/
def parse_command (commands : CommandToken) : Option Command :=
  let s := commands.content
  match re_ref_match s with
  | some (content, k, sz) =>
      some (.SingleCommand (.Midashi (⟨sz, k⟩, content)))
  | none =>
  match re_begin_match s with
  | some (k, sz) => some (.CommandBegin (.Midashi ⟨sz, k⟩))
  | none =>
  match re_end_match s with
  | some (k, sz) => some (.CommandEnd (.Midashi ⟨sz, k⟩))
  | none =>
  match re_jisage_match s with
  | some ds =>
      (match full_width_digit_to_u32 ds with
       | some n => some (.SingleCommand (.Alignment ⟨true, n⟩))
       | none => literalCommandMatch s)
  | none =>
  match re_jisage_begin_match s with
  | some ds =>
      (match full_width_digit_to_u32 ds with
       | some n => some (.CommandBegin (.Alignment ⟨true, n⟩))
       | none => literalCommandMatch s)
  | none => literalCommandMatch s

/-!
Item parser, embedded from parser.rs.  The Rust function returns a
Result whose error variant (UnexpectedToken) is never constructed,
so the embedding returns the document directly.  The mutable item
vector and text-token buffer become accumulator arguments; the
multipeek iterator becomes plain recursion on the token list.
-/

structure DecoratedText where
  text : List Char
  ruby : Option (List Char)
  span : Span
deriving DecidableEq, Repr

inductive SpecialCharacter where
  | Odoriji
  | DakutenOdoriji
deriving DecidableEq, Repr

/-- Embeds enum ParsedItem of parser.rs. -/
inductive ParsedItem where
  | Text (dt : DecoratedText)
  | Command (cmd : Command) (span : Span)
  | Newline (span : Span)
  | SpecialCharacter (kind : SpecialCharacter) (span : Span)
deriving DecidableEq, Repr

structure AozoraMetadata where
  title : List Char
  author : List Char
deriving DecidableEq, Repr

structure AozoraDocument where
  metadata : AozoraMetadata
  items : List ParsedItem
deriving DecidableEq, Repr

/-- Embeds the consume_line_as_string closure: text contents are
accumulated verbatim, other tokens are discarded, and the line ends
at (and consumes) the first newline or at end of input.  Returns
the line and the remaining tokens. -/
def consume_line_as_string :
    List AozoraToken → List Char × List AozoraToken
  | [] => ([], [])
  | .Newline _ :: rest => ([], rest)
  | .Text t :: rest =>
      let (l, r) := consume_line_as_string rest
      (t.content ++ l, r)
  | _ :: rest => consume_line_as_string rest

/-- The span end of the last buffered text token. -/
def lastSpanStop : TextToken → List TextToken → Nat
  | t, [] => t.span.stop
  | _, t2 :: rest => lastSpanStop t2 rest

/-- Embeds the buffer_span helper of parser.rs: default span for an
empty buffer, else first start to last end. -/
def buffer_span (buffer : List TextToken) : Span :=
  match buffer with
  | [] => Span.default
  | t :: rest => ⟨t.span.start, lastSpanStop t rest⟩

/-- Concatenation of the buffered text contents with the empty
separator, as in the join("") calls of parser.rs. -/
def joinContents : List TextToken → List Char
  | [] => []
  | t :: rest => t.content ++ joinContents rest

/-- The repeated flush of the text buffer in parser.rs: an empty
buffer emits nothing, a nonempty buffer emits one ruby-less text
item whose content and span merge the buffered tokens. -/
def flushBuffer (buffer : List TextToken) : List ParsedItem :=
  match buffer with
  | [] => []
  | _ => [.Text ⟨joinContents buffer, none, buffer_span buffer⟩]

/-- The bibliographic comment sentinel of parser.rs: fifty-five
ASCII hyphen-minus characters. -/
def sentinel : List Char := List.replicate 55 '-'

/-- Substring search, embedding str::contains for the sentinel. -/
def containsSeq (needle : List Char) : List Char → Bool
  | [] => needle = []
  | c :: rest => needle.isPrefixOf (c :: rest) || containsSeq needle rest

/-- Embeds the inner loop of the RubySeparator arm of parse: text
tokens are accumulated; a ruby gloss terminates with success and is
consumed; any other token (or end of input) terminates with failure
and is left in the remainder for the outer loop. -/
def rubySepScan :
    List AozoraToken →
    List TextToken × Option (List Char × Span) × List AozoraToken
  | [] => ([], none, [])
  | .Ruby content rspan :: rest => ([], some (content, rspan), rest)
  | .Text t :: rest =>
      let (ts, r, rem) := rubySepScan rest
      (t :: ts, r, rem)
  | tok :: rest => ([], none, tok :: rest)

/-- Removes the last element of a nonempty buffer, mirroring the
Vec::pop of the gloss-attachment arm: returns the initial segment
and the popped last element. -/
def splitLast : List TextToken → Option (List TextToken × TextToken)
  | [] => none
  | [t] => some ([], t)
  | t :: t2 :: rest =>
      (splitLast (t2 :: rest)).map (fun p => (t :: p.1, p.2))

/-- Embeds the main loop of parse (parser.rs) over the tokens that
follow the two header lines.  Arguments: fuel (each iteration
consumes at least one token), the remaining tokens, the comment-skip
flag, the text-token buffer, and the items emitted so far. -/
def parseLoop : Nat → List AozoraToken → Bool → List TextToken →
    List ParsedItem → List ParsedItem
  | 0, _, _, buffer, acc => acc ++ flushBuffer buffer
  | _ + 1, [], _, buffer, acc => acc ++ flushBuffer buffer
  | fuel + 1, tok :: rest, true, buffer, acc =>
      -- comment-skip mode: only a text token carrying the sentinel
      -- leaves the mode (consuming one following newline)
      (match tok with
       | .Text t =>
           if containsSeq sentinel t.content then
             match rest with
             | .Newline _ :: rest2 => parseLoop fuel rest2 false buffer acc
             | _ => parseLoop fuel rest false buffer acc
           else parseLoop fuel rest true buffer acc
       | _ => parseLoop fuel rest true buffer acc)
  | fuel + 1, tok :: rest, false, buffer, acc =>
      match tok with
      | .Text t =>
          if containsSeq sentinel t.content then
            let acc2 := acc ++ flushBuffer buffer
            match rest with
            | .Newline _ :: rest2 => parseLoop fuel rest2 true [] acc2
            | _ => parseLoop fuel rest true [] acc2
          else parseLoop fuel rest false (buffer ++ [t]) acc
      | .RubySeparator sep =>
          let acc2 := acc ++ flushBuffer buffer
          match rubySepScan rest with
          | (temp, some (rc, rsp), rem) =>
              let text_span :=
                if temp = [] then sep else sep.merge (buffer_span temp)
              let full_span := text_span.merge rsp
              parseLoop fuel rem false []
                (acc2 ++ [.Text ⟨joinContents temp, some rc, full_span⟩])
          | (temp, none, rem) =>
              let acc3 := acc2 ++ [.Text ⟨['｜'], none, sep⟩] ++
                (if temp = [] then []
                 else [.Text ⟨joinContents temp, none, buffer_span temp⟩])
              parseLoop fuel rem false [] acc3
      | .Ruby content rspan =>
          (match splitLast buffer with
           | some (init, last) =>
               let acc2 := acc ++ flushBuffer init
               parseLoop fuel rest false []
                 (acc2 ++ [.Text ⟨last.content, some content,
                   last.span.merge rspan⟩])
           | none =>
               -- gloss without preceding text: dropped whether or
               -- not the gloss content is empty
               parseLoop fuel rest false buffer acc)
      | .Command c =>
          let acc2 := acc ++ flushBuffer buffer
          (match parse_command c with
           | none => parseLoop fuel rest false [] acc2
           | some cmd =>
               match cmd with
               | .SingleCommand (.Midashi (m, content)) =>
                   (match acc2.getLast? with
                    | some (.Text dt) =>
                        if dt.text = content then
                          parseLoop fuel rest false []
                            (acc2.dropLast ++
                             [.Command (.CommandBegin (.Midashi m)) dt.span,
                              .Text dt,
                              .Command (.CommandEnd (.Midashi m)) c.span])
                        else
                          parseLoop fuel rest false []
                            (acc2 ++ [.Command cmd c.span])
                    | _ =>
                        parseLoop fuel rest false []
                          (acc2 ++ [.Command cmd c.span]))
               | _ =>
                   parseLoop fuel rest false []
                     (acc2 ++ [.Command cmd c.span]))
      | .Newline sp =>
          parseLoop fuel rest false []
            (acc ++ flushBuffer buffer ++ [.Newline sp])
      | .Odoriji sp =>
          parseLoop fuel rest false []
            (acc ++ flushBuffer buffer ++
             [.SpecialCharacter .Odoriji sp])
      | .DakutenOdoriji sp =>
          parseLoop fuel rest false []
            (acc ++ flushBuffer buffer ++
             [.SpecialCharacter .DakutenOdoriji sp])

/-- Embeds pub fn parse of parser.rs: the first two lines become the
metadata, the rest goes through the main loop.  The Rust function
returns Result but never constructs its error, so the document is
returned directly.  Fuel equal to the token count is exact because
every iteration consumes at least one token. -/
def parse (tokens : List AozoraToken) : AozoraDocument :=
  let p1 := consume_line_as_string tokens
  let p2 := consume_line_as_string p1.2
  ⟨⟨p1.1, p2.1⟩, parseLoop p2.2.length p2.2 false [] []⟩

/-!
Block builder, embedded from block_parser.rs.  The Vec-based stack
of open blocks becomes a list whose head is the top of the stack.
-/

mutual
/-- Embeds struct AozoraBlock: decoration (none for the root),
children in source order, span. -/
inductive AozoraBlock where
  | mk (decoration : Option CommandBegin) (elements : List BlockElement)
       (span : Span)

/-- Embeds enum BlockElement. -/
inductive BlockElement where
  | item (i : ParsedItem)
  | block (b : AozoraBlock)
end

def AozoraBlock.decoration : AozoraBlock → Option CommandBegin
  | .mk d _ _ => d

def AozoraBlock.elements : AozoraBlock → List BlockElement
  | .mk _ es _ => es

def AozoraBlock.span : AozoraBlock → Span
  | .mk _ _ sp => sp

inductive BlockParseError where
  | UnexpectedEnd (e : CommandEnd) (span : Span)
  | UnclosedBlock (begins : CommandBegin) (span : Span)
deriving DecidableEq, Repr

/-- Embeds the item_span helper of block_parser.rs. -/
def item_span : ParsedItem → Span
  | .Text dt => dt.span
  | .Command _ sp => sp
  | .Newline sp => sp
  | .SpecialCharacter _ sp => sp

/-- Embeds the element_span helper of block_parser.rs. -/
def element_span : BlockElement → Span
  | .item i => item_span i
  | .block b => b.span

/-- One iteration of the block-builder loop of parse_blocks: a
command begin pushes a fresh block, a command end with only the
root open fails with UnexpectedEnd and otherwise pops the top,
extends its span by the end span (with no comparison of the end
tag against the popped decoration) and appends it to the new top,
and every other item is appended to the top block. -/
def pushItem (stack : List AozoraBlock) (item : ParsedItem) :
    Except BlockParseError (List AozoraBlock) :=
  match item with
  | .Command (.CommandBegin b) sp => .ok (.mk (some b) [] sp :: stack)
  | .Command (.CommandEnd e) sp =>
      (match stack with
       | top :: parent :: rest =>
           .ok (.mk parent.decoration
             (parent.elements ++
              [.block (.mk top.decoration top.elements (top.span.merge sp))])
             parent.span :: rest)
       | _ => .error (.UnexpectedEnd e sp))
  | other =>
      (match stack with
       | top :: rest =>
           .ok (.mk top.decoration (top.elements ++ [.item other])
             top.span :: rest)
       | [] => .ok [])

/-- Embeds the closing while-loop of parse_blocks: still-open
blocks are popped and attached to their parents in order, without
any span extension.  The stack top is passed as a separate first
argument so that the recursion is structural on the rest of the
stack. -/
def autoClose : AozoraBlock → List AozoraBlock → AozoraBlock
  | b, [] => b
  | top, parent :: rest =>
      autoClose (.mk parent.decoration
        (parent.elements ++ [.block top]) parent.span) rest

/-- Embeds the final root-span computation of parse_blocks: a
nonempty root gets the merge of its first and last children spans. -/
def fixRootSpan (b : AozoraBlock) : AozoraBlock :=
  match b.elements.head?, b.elements.getLast? with
  | some f, some l =>
      .mk b.decoration b.elements ((element_span f).merge (element_span l))
  | _, _ => b

/-- Embeds pub fn parse_blocks of block_parser.rs. -/
def parse_blocks (items : List ParsedItem) :
    Except BlockParseError AozoraBlock :=
  match items.foldlM pushItem [.mk none [] Span.default] with
  | .error e => .error e
  | .ok [] => .ok (.mk none [] Span.default)
  | .ok (top :: rest) => .ok (fixRootSpan (autoClose top rest))

/-!
Linter, embedded from linter.rs.
-/

inductive Severity where
  | Error
  | Warning
  | Info
deriving DecidableEq, Repr

inductive LintWarningKind where
  | RubyWithoutText
  | UnknownCommand (raw : List Char)
  | MismatchedBlockTags
  | MissingParagraphIndent
  | PunctuationBeforeQuote
  | OddEllipsisCount
  | InvalidCharAfterExclamation
deriving DecidableEq, Repr

structure LintWarning where
  kind : LintWarningKind
  span : Span
  severity : Severity
  message : List Char
deriving DecidableEq, Repr

/-- Embeds LintWarning::warning, the warning-severity constructor. -/
def LintWarning.warning (kind : LintWarningKind) (span : Span)
    (message : List Char) : LintWarning :=
  ⟨kind, span, .Warning, message⟩

structure LintResult where
  block : AozoraBlock
  warnings : List LintWarning

/-- Embeds is_valid_paragraph_start of linter.rs: the empty text is
valid, else the first character must be the full-width space, an
opening bracket, or a decorative start. -/
def is_valid_paragraph_start (text : List Char) : Bool :=
  match text with
  | [] => true
  | c :: _ =>
      c = '　' || c = '「' || c = '『' || c = '（' || c = '【' ||
      c = '〈' || c = '《' || c = '─' || c = '―' || c = '…'

/-- The message of the paragraph-indent warning. -/
def indentMessage : List Char :=
  "段落の先頭には全角スペースまたは字下げが必要です".toList

/-- Embeds the element loop of check_paragraph_indent: the flag is
true at the start of a children list and after a newline item; a
text item met with the flag set is checked; every other item,
including commands, clears the flag; a nested block is checked
recursively with a fresh flag and clears the outer flag. -/
def checkPIElems (after_newline : Bool) :
    List BlockElement → List LintWarning
  | [] => []
  | .item (.Newline _) :: rest => checkPIElems true rest
  | .item (.Text dt) :: rest =>
      if after_newline then
        (if !is_valid_paragraph_start dt.text then
           [LintWarning.warning .MissingParagraphIndent dt.span
             indentMessage]
         else []) ++ checkPIElems false rest
      else checkPIElems false rest
  | .item _ :: rest => checkPIElems false rest
  | .block (.mk _ es _) :: rest =>
      checkPIElems true es ++ checkPIElems false rest

/-- Embeds check_paragraph_indent of linter.rs (the start of the
document counts as after a newline). -/
def check_paragraph_indent (block : AozoraBlock) : List LintWarning :=
  checkPIElems true block.elements

/-- Embeds is_valid_after_exclamation of linter.rs. -/
def is_valid_after_exclamation (c : Char) : Bool :=
  c = '！' || c = '？' ||
  c = '」' || c = '』' || c = '）' || c = '】' || c = '〉' || c = '》' ||
  c = '　' || c = ' ' || c = '\n' || c = '\r'

/-- The message of the redundant-punctuation warning. -/
def quoteMessage : List Char :=
  "閉じ括弧は句点と同じ効果を持つため、句点との併用は冗長です".toList

/-- The message of the odd ellipsis or dash warning for the given
run character. -/
def ellipsisMessage (target : Char) : List Char :=
  (if target = '…' then "三点リーダ".toList else "ダッシュ".toList) ++
  "は偶数個（2個）で使用することが推奨されます".toList

/-- The message of the invalid-character-after-exclamation warning. -/
def exclamationMessage : List Char :=
  "！？の後には空白または閉じ括弧が必要です".toList

/-- Embeds the scanning loop of check_text_patterns: the
punctuation-before-quote window, the odd ellipsis or dash run
(which advances past the whole run), and the character after an
exclamation or question mark. -/
def check_text_patterns_aux : Nat → List Char → Nat → List LintWarning
  | 0, _, _ => []
  | _ + 1, [], _ => []
  | fuel + 1, c :: rest, pos =>
    let w1 :=
      if (c = '。' || c = '．') && rest.head? = some '」' then
        [LintWarning.warning .PunctuationBeforeQuote ⟨pos, pos + 2⟩
          quoteMessage]
      else []
    if c = '…' || c = '―' then
      let run := rest.takeWhile (fun x => x = c)
      let count := 1 + run.length
      let w2 :=
        if count % 2 ≠ 0 then
          [LintWarning.warning .OddEllipsisCount ⟨pos, pos + count⟩
            (ellipsisMessage c)]
        else []
      w1 ++ w2 ++
        check_text_patterns_aux fuel (rest.drop run.length) (pos + count)
    else
      let w3 :=
        if (c = '！' || c = '？') then
          match rest.head? with
          | some next =>
              if !is_valid_after_exclamation next then
                [LintWarning.warning .InvalidCharAfterExclamation
                  ⟨pos, pos + 2⟩ exclamationMessage]
              else []
          | none => []
        else []
      w1 ++ w3 ++ check_text_patterns_aux fuel rest (pos + 1)

/-- Embeds check_text_patterns of linter.rs. -/
def check_text_patterns (text : List Char) : List LintWarning :=
  check_text_patterns_aux text.length text 0

/-- Embeds pub fn lint of linter.rs: the paragraph-indent check runs
first, then the character-pattern check over the original text. -/
def lint (block : AozoraBlock) (original_text : List Char) : LintResult :=
  ⟨block, check_paragraph_indent block ++ check_text_patterns original_text⟩

/-!
XHTML emitter, embedded from xhtml_generator.rs.  The generator
struct carries the body built so far, the collected table of
contents, and the next heading id; its unused css field is omitted.
-/

structure TocEntry where
  level : Nat
  text : List Char
  id : List Char
deriving DecidableEq, Repr

structure GenState where
  body : List Char
  toc_entries : List TocEntry
  next_id : Nat
deriving DecidableEq, Repr

/-- Appends rendered output to the body of the generator state. -/
def withBody (st : GenState) (s : List Char) : GenState :=
  ⟨st.body ++ s, st.toc_entries, st.next_id⟩

/-- Replaces every occurrence of one character by a replacement
string, embedding a single str::replace pass. -/
def replaceChar (c : Char) (rep : List Char) : List Char → List Char
  | [] => []
  | x :: xs => (if x = c then rep else [x]) ++ replaceChar c rep xs

/-- Embeds escape_html of xhtml_generator.rs: the five replace
passes in source order, ampersand first. -/
def escape_html (s : List Char) : List Char :=
  replaceChar '\'' ("&apos;".toList)
    (replaceChar '"' ("&quot;".toList)
      (replaceChar '>' ("&gt;".toList)
        (replaceChar '<' ("&lt;".toList)
          (replaceChar '&' ("&amp;".toList) s))))

/-- Decimal rendering of a counter, as the format macro prints a
usize. -/
def natToChars (n : Nat) : List Char := Nat.toDigits 10 n

/-- Embeds resolve_decoration of xhtml_generator.rs.  Returns the
tag, the class list, the closing tag, and the is-heading flag. -/
def resolve_decoration (decoration : Option CommandBegin) :
    List Char × List (List Char) × List Char × Bool :=
  match decoration with
  | none => ("div".toList, [], "</div>".toList, false)
  | some cmd =>
    match cmd with
    | .Midashi m =>
        let tag := match m.size with
          | .Large => "h2".toList
          | .Middle => "h3".toList
          | .Small => "h4".toList
        (match m.kind with
         | .Dogyo =>
             ("span".toList, ["midashi-dogyo".toList], "</span>".toList,
              false)
         | _ => (tag, [], "</".toList ++ tag ++ ">".toList, true))
    | .Alignment a =>
        let cls :=
          if a.is_upper then "jisage-".toList ++ natToChars a.space
          else "chitsuki-".toList ++ natToChars a.space
        ("div".toList, [cls], "</div>".toList, false)
    | .Kakomikei =>
        ("div".toList, ["kakomi".toList], "</div>".toList, false)
    | .Yokogumi =>
        ("div".toList, ["yokogumi".toList], "</div>".toList, false)
    | _ => ("div".toList, [], "</div>".toList, false)

/-- Embeds accumulate_text_from_item: text items and the contents
of reference-form heading commands contribute, everything else is
ignored. -/
def accumulate_text_from_item (item : ParsedItem) : List Char :=
  match item with
  | .Text dt => dt.text
  | .Command (.SingleCommand (.Midashi (_, content))) _ => content
  | _ => []

/-- Embeds accumulate_text_from_block over a children list, in
order, descending into nested blocks. -/
def accumulate_text_elems : List BlockElement → List Char
  | [] => []
  | .item i :: rest => accumulate_text_from_item i ++ accumulate_text_elems rest
  | .block (.mk _ es _) :: rest =>
      accumulate_text_elems es ++ accumulate_text_elems rest

/-- Embeds extract_text_from_block of xhtml_generator.rs. -/
def extract_text_from_block (b : AozoraBlock) : List Char :=
  accumulate_text_elems b.elements

/-- The heading level deduced from the tag, as in render_block and
render_item (anything that is not h2, h3 or h4 maps to 2). -/
def levelOfTag (tag : List Char) : Nat :=
  if tag = "h2".toList then 2
  else if tag = "h3".toList then 3
  else if tag = "h4".toList then 4
  else 2

/-- Embeds render_item of xhtml_generator.rs: inline rendering of
one buffered item.  A reference-form heading command renders its
own heading element in place, takes the next midashi id and pushes
a table-of-contents entry. -/
def renderItem (st : GenState) (item : ParsedItem) : GenState :=
  match item with
  | .Text dt =>
      let content := escape_html dt.text
      (match dt.ruby with
       | some ruby =>
           withBody st ("<ruby>".toList ++ content ++ "<rt>".toList ++
             escape_html ruby ++ "</rt></ruby>".toList)
       | none => withBody st content)
  | .Newline _ => st
  | .Command (.SingleCommand sc) _ =>
      (match sc with
       | .Bold s =>
           withBody st ("<span class=\"bold\">".toList ++
             escape_html s ++ "</span>".toList)
       | .Italic s =>
           withBody st ("<span class=\"italic\">".toList ++
             escape_html s ++ "</span>".toList)
       | .Bouten (_, s) =>
           withBody st ("<span class=\"em\">".toList ++
             escape_html s ++ "</span>".toList)
       | .Bousen (_, s) =>
           withBody st ("<span class=\"bousen\">".toList ++
             escape_html s ++ "</span>".toList)
       | .Kaipage => withBody st ("<div class=\"page-break\"></div>".toList)
       | .Kaicho => withBody st ("<div class=\"page-break\"></div>".toList)
       | .Kaimihiraki => withBody st ("<div class=\"kaimihiraki\"></div>".toList)
       | .Kaidan => withBody st ("<div class=\"column-break\"></div>".toList)
       | .Midashi (m, content) =>
           let tc := resolve_decoration (some (.Midashi m))
           let tag := tc.1
           let classes := tc.2.1
           let close := tc.2.2.1
           let id := "midashi-".toList ++ natToChars st.next_id
           let level := levelOfTag tag
           let st1 : GenState :=
             ⟨st.body, st.toc_entries ++ [⟨level, content, id⟩],
              st.next_id + 1⟩
           let st2 := withBody st1 ("<".toList ++ tag ++
             " id=\"".toList ++ id ++ "\"".toList)
           let st3 :=
             if classes ≠ [] then
               withBody st2 (" class=\"".toList ++
                 List.intercalate (" ".toList) classes ++ "\"".toList)
             else st2
           withBody st3 (">".toList ++ escape_html content ++ close)
       | _ => st)
  | .SpecialCharacter .Odoriji _ => withBody st ("／＼".toList)
  | .SpecialCharacter .DakutenOdoriji _ => withBody st ("／″＼".toList)
  | _ => st

/-- Embeds flush_paragraph of xhtml_generator.rs: an empty buffer
emits nothing; otherwise the items are rendered, wrapped in a p
element unless inside a heading block. -/
def flush_paragraph (st : GenState) (buffer : List ParsedItem)
    (is_heading : Bool) : GenState :=
  if buffer = [] then st
  else
    let st1 := if !is_heading then withBody st ("<p>".toList) else st
    let st2 := buffer.foldl renderItem st1
    if !is_heading then withBody st2 ("</p>".toList) else st2

/-- The opening part of render_block: resolves the decoration,
takes a midashi id and a table-of-contents entry when the block is
a heading, and writes the opening tag.  Returns the new state, the
closing tag and the is-heading flag. -/
def block_open (st : GenState) (b : AozoraBlock) :
    GenState × List Char × Bool :=
  let tc := resolve_decoration b.decoration
  let tag := tc.1
  let classes := tc.2.1
  let close_tag := tc.2.2.1
  let is_heading := tc.2.2.2
  let sti :=
    if is_heading then
      let id := "midashi-".toList ++ natToChars st.next_id
      let toc_text := extract_text_from_block b
      let level := levelOfTag tag
      (GenState.mk st.body
        (st.toc_entries ++ [⟨level, toc_text, id⟩]) (st.next_id + 1),
       " id=\"".toList ++ id ++ "\"".toList)
    else (st, [])
  let st1 := sti.1
  let id_attr := sti.2
  let st2 :=
    if tag ≠ [] then
      let sta := withBody st1 ("<".toList ++ tag ++ id_attr)
      let stb :=
        if classes ≠ [] then
          withBody sta (" class=\"".toList ++
            List.intercalate (" ".toList) classes ++ "\"".toList)
        else sta
      withBody stb (">".toList)
    else st1
  (st2, close_tag, is_heading)

/-- Embeds the children loop of render_block: inline items gather
in a buffer; a newline flushes it as a paragraph (an empty buffer
at a newline emits an empty paragraph except inside headings);
begin, end and reference-form heading commands flush first, the
reference-form heading then rendering in place; a nested block
flushes and recurses.  The trailing flush and the closing tag of a
nested block are part of the block case. -/
def renderElems (st : GenState) (buffer : List ParsedItem)
    (is_heading : Bool) : List BlockElement → GenState
  | [] => flush_paragraph st buffer is_heading
  | .item i :: rest =>
    (match i with
     | .Newline _ =>
         if buffer = [] then
           let st1 :=
             if !is_heading then withBody st ("<p><br/></p>".toList)
             else st
           renderElems st1 [] is_heading rest
         else
           renderElems (flush_paragraph st buffer is_heading) []
             is_heading rest
     | .Command (.CommandBegin _) _ =>
         renderElems (flush_paragraph st buffer is_heading) []
           is_heading rest
     | .Command (.CommandEnd _) _ =>
         renderElems (flush_paragraph st buffer is_heading) []
           is_heading rest
     | .Command (.SingleCommand (.Midashi mc)) sp =>
         let st1 := flush_paragraph st buffer is_heading
         let st2 := renderItem st1
           (.Command (.SingleCommand (.Midashi mc)) sp)
         renderElems st2 [] is_heading rest
     | _ => renderElems st (buffer ++ [i]) is_heading rest)
  | .block (.mk dec es sp) :: rest =>
      let st1 := flush_paragraph st buffer is_heading
      let ob := block_open st1 (.mk dec es sp)
      let st2 := ob.1
      let close_tag := ob.2.1
      let bh := ob.2.2
      let st3 := renderElems st2 [] bh es
      let st4 := if close_tag ≠ [] then withBody st3 close_tag else st3
      renderElems st4 [] is_heading rest

/-- Embeds render_block of xhtml_generator.rs: rendering one block
is the block case of the children loop run on a singleton list with
an empty buffer (the flush of an empty buffer writes nothing, and
the empty tail returns the state unchanged). -/
def render_block (st : GenState) (block : AozoraBlock) : GenState :=
  renderElems st [] false [.block block]

/-- Embeds XhtmlGenerator::generate: renders the root block from a
fresh generator state (next id 1) and wraps the body in the fixed
document envelope with the title spliced in. -/
def generate (block : AozoraBlock) (title : List Char) :
    List Char × List TocEntry :=
  let g := render_block ⟨[], [], 1⟩ block
  (("<?xml version=\"1.0\" encoding=\"UTF-8\"?>\n<!DOCTYPE html>\n<html\n xmlns=\"http://www.w3.org/1999/xhtml\"\n xmlns:epub=\"http://www.idpf.org/2007/ops\"\n xml:lang=\"ja\"\n class=\"vrtl\"\n>\n<head>\n<meta charset=\"UTF-8\"/>\n<title>".toList
    ++ title ++
    "</title>\n<link rel=\"stylesheet\" type=\"text/css\" href=\"../style/book-style.css\"/>\n\n</head>\n<body>\n<div class=\"main\">\n".toList
    ++ g.body ++
    "\n</div>\n</body>\n</html>".toList),
   g.toc_entries)

/-- Embeds text_to_xhtml of lib.rs: the composed pipeline from the
source text to the XHTML string and table of contents, with the
error of any phase propagated (the document phase never fails). -/
def text_to_xhtml (text : List Char) :
    Option (List Char × List TocEntry) :=
  match parse_aozora text with
  | .error _ => none
  | .ok toks =>
      let doc := parse toks
      match parse_blocks doc.items with
      | .error _ => none
      | .ok blocks => some (generate blocks doc.metadata.title)

/-!
Specification-side definitions.  The definitions below follow the
wording of the specification sentences under scrutiny; they are
compared against the embedded source functions by the theorems.
-/

/-- The span carried by a token (every token carries one). -/
def tokenSpan : AozoraToken → Span
  | .Text t => t.span
  | .Ruby _ sp => sp
  | .RubySeparator sp => sp
  | .Command c => c.span
  | .Newline sp => sp
  | .Odoriji sp => sp
  | .DakutenOdoriji sp => sp

/-- Ordered well-formed item spans: every span is nonempty in the
weak sense start ≤ end, every start is at least the running lower
bound, and the bound advances to each span's end (so consecutive
item spans do not overlap and appear in source order). -/
def orderedFromB (f : Nat) : List ParsedItem → Bool
  | [] => true
  | i :: rest =>
      (f ≤ (item_span i).start && (item_span i).start ≤ (item_span i).stop)
      && orderedFromB (item_span i).stop rest

/-- Balanced begin and end commands relative to a current depth of
open non-root blocks: an end never arrives at depth zero and the
final depth is zero, so the block builder neither fails nor
auto-closes. -/
def balancedItems : List ParsedItem → Nat → Bool
  | [], d => d = 0
  | .Command (.CommandBegin _) _ :: rest, d => balancedItems rest (d + 1)
  | .Command (.CommandEnd _) _ :: rest, d =>
      d ≠ 0 && balancedItems rest (d - 1)
  | _ :: rest, d => balancedItems rest d

/-- Span coverage of every non-root block of a children list: each
nested block's span contains the spans of all of its children, and
so on recursively. -/
def elementsCovered : List BlockElement → Prop
  | [] => True
  | .item _ :: rest => elementsCovered rest
  | .block (.mk _ es sp) :: rest =>
      (∀ e ∈ es, sp.start ≤ (element_span e).start ∧
        (element_span e).stop ≤ sp.stop) ∧
      elementsCovered es ∧ elementsCovered rest

/-- Paragraph-start test on the previous sibling, following the
specification: a text is at paragraph start when it is the first
element of a children list or directly follows a newline item. -/
def isParaStartPrev : Option BlockElement → Bool
  | none => true
  | some (.item (.Newline _)) => true
  | _ => false

/-- Specification-side enumeration of the missing-indent warnings:
one warning for each text element whose previous sibling is a
newline (or that heads a children list, also of a nested block)
and whose first character is not a valid paragraph start. -/
def expectedPIFrom (prev : Option BlockElement) :
    List BlockElement → List LintWarning
  | [] => []
  | e :: rest =>
      (match e with
       | .block (.mk _ es _) => expectedPIFrom none es
       | .item (.Text dt) =>
           if isParaStartPrev prev && !is_valid_paragraph_start dt.text then
             [LintWarning.warning .MissingParagraphIndent dt.span
               indentMessage]
           else []
       | _ => []) ++ expectedPIFrom (some e) rest

/-- Specification-side heading test for the table of contents: a
Normal or Window (mado) heading decoration contributes an entry,
an Inline (dogyo) one does not, nor does any other decoration. -/
def isTocHeading : Option CommandBegin → Bool
  | some (.Midashi m) =>
      (match m.kind with
       | .Normal => true
       | .Mado => true
       | .Dogyo => false)
  | _ => false

/-- Tests whether a parsed item is a reference-form (inline)
heading command. -/
def isInlineMidashi : ParsedItem → Bool
  | .Command (.SingleCommand (.Midashi _)) _ => true
  | _ => false

/-- Specification-side count of table-of-contents entries of a
children list: heading blocks of Normal or Window kind plus
reference-form heading commands, recursively. -/
def tocCountElems : List BlockElement → Nat
  | [] => 0
  | .item i :: rest =>
      (if isInlineMidashi i then 1 else 0) + tocCountElems rest
  | .block (.mk dec es _) :: rest =>
      (if isTocHeading dec then 1 else 0) + tocCountElems es +
        tocCountElems rest

/-- Specification-side count of table-of-contents entries of a
whole block (the block itself plus its descendants). -/
def tocCountBlock (b : AozoraBlock) : Nat :=
  (if isTocHeading b.decoration then 1 else 0) + tocCountElems b.elements

/-- Tests whether a token is a plain text token (the tokens the
ruby-base subparser accumulates). -/
def isTextTok : AozoraToken → Bool
  | .Text _ => true
  | _ => false

/-- The input of the third end-to-end scenario: title line, author
line, and a heading in block form. -/
def c1_input : List Char :=
  "T\nA\n［＃大見出し］序章［＃大見出し終わり］".toList

/-- The block tree the pipeline actually builds from c1_input: the
closing ］ of each command is left unconsumed by the scanner and
reappears as text, so the heading block carries ］序章 and a stray
］ trails at the root. -/
def c1_root : AozoraBlock :=
  .mk none
    [.block (.mk (some (.Midashi ⟨.Large, .Normal⟩))
      [.item (.Text ⟨"］序章".toList, none, ⟨10, 13⟩⟩)] ⟨4, 22⟩),
     .item (.Text ⟨"］".toList, none, ⟨22, 23⟩⟩)]
    ⟨4, 23⟩

/-- The body the emitter renders for c1_root. -/
def c1_body : List Char :=
  "<div><h2 id=\"midashi-1\">］序章</h2><p>］</p></div>".toList

/-- Invariant of one open block of the builder stack relative to
the running frontier f (the least possible start of the next item
span): its children are recursively covered, its span is weakly
ordered and closed before the frontier, and its children's spans
lie between its span start and the frontier. -/
def BlockOK (f : Nat) (b : AozoraBlock) : Prop :=
  elementsCovered b.elements ∧
  b.span.start ≤ b.span.stop ∧ b.span.stop ≤ f ∧
  ∀ e ∈ b.elements, b.span.start ≤ (element_span e).start ∧
    (element_span e).stop ≤ f

/-- Invariant of the whole builder stack: every open block
satisfies BlockOK and the span starts decrease from the innermost
(top) block outward to the root. -/
def StackInv (f : Nat) (stack : List AozoraBlock) : Prop :=
  (∀ b ∈ stack, BlockOK f b) ∧
  List.Pairwise (fun a b => b.span.start ≤ a.span.start) stack

/-- Well-formedness facts the scanner guarantees for a produced
token, stated relative to the suffix cs of the input that starts at
position pos: the token starts at or after pos and has a nonempty
span; a gloss token ends one past its closing 》 unless it ran to
the end of the input; a command token has ［＃ at its span start
and the unconsumed ］ exactly at its span end. -/
def TokGood (cs : List Char) (pos : Nat) (t : AozoraToken) : Prop :=
  pos ≤ (tokenSpan t).start ∧ (tokenSpan t).start < (tokenSpan t).stop ∧
  (∀ content sp, t = .Ruby content sp →
      cs[sp.stop - 1 - pos]? = some '》' ∨ sp.stop = pos + cs.length) ∧
  (∀ ct, t = .Command ct →
      cs[ct.span.stop - pos]? = some '］' ∧
      cs[ct.span.start - pos]? = some '［' ∧
      cs[ct.span.start + 1 - pos]? = some '＃')

/-- The textual cause of an unclosed-command error, stated relative
to the suffix cs of the input that starts at position pos: the span
opens with ［＃, every character of the body up to the span end is
neither ］ nor whitespace, and the span ends at the end of input or
at a whitespace character. -/
def ErrGood (cs : List Char) (pos : Nat) (sp : Span) : Prop :=
  pos ≤ sp.start ∧ sp.start + 2 ≤ sp.stop ∧
  cs[sp.start - pos]? = some '［' ∧
  cs[sp.start + 1 - pos]? = some '＃' ∧
  (∀ k, sp.start + 2 ≤ k → k < sp.stop →
     ∃ ch, cs[k - pos]? = some ch ∧ ch ≠ '］' ∧ is_whitespace ch = false) ∧
  (sp.stop = pos + cs.length ∨
   ∃ ch, cs[sp.stop - pos]? = some ch ∧ is_whitespace ch = true)

/-- A command body that none of the recogniser patterns matches. -/
def c3_token : CommandToken := ⟨"底本データ".toList, ⟨2, 9⟩⟩

/-- The block tree built from an unclosed begin command followed by
a text item lying outside the begin span: the auto-closed block
keeps only the begin span. -/
def c4_root : AozoraBlock :=
  .mk none
    [.block (.mk (some .Yokogumi)
      [.item (.Text ⟨"oops".toList, none, ⟨10, 20⟩⟩)] ⟨0, 5⟩)]
    ⟨0, 5⟩

/-- The block with a newline, then a command, then an unindented
text, on which claim C5 predicts a missing-indent warning. -/
def c5_block : AozoraBlock :=
  .mk none
    [.item (.Newline ⟨3, 4⟩),
     .item (.Command (.SingleCommand .Kaipage) ⟨4, 5⟩),
     .item (.Text ⟨"あ".toList, none, ⟨5, 6⟩⟩)]
    ⟨3, 6⟩

/-!
Theorems.  Each claim of the review gets exactly one theorem below,
preceded by helper lemmas where needed.
-/

/-- Helper for C1: the rendering of the actual block tree of the
scenario input, evaluated. -/
theorem c1_render_eval :
    render_block ⟨[], [], 1⟩ c1_root =
      ⟨c1_body, [⟨2, "］序章".toList, "midashi-1".toList⟩], 2⟩ := by
  simp [render_block, renderElems, flush_paragraph, block_open,
    resolve_decoration, extract_text_from_block, accumulate_text_elems,
    accumulate_text_from_item, levelOfTag, natToChars, withBody,
    renderItem, escape_html, replaceChar, AozoraBlock.decoration,
    AozoraBlock.elements, AozoraBlock.span, Nat.toDigits,
    Nat.toDigitsCore, Nat.digitChar, c1_root, c1_body]

/-- Claim C1: the specification scenario expects the input
T, A, ［＃大見出し］序章［＃大見出し終わり］ to produce a root whose
only child is a Large Normal heading block containing exactly the
text 序章, and XHTML containing the h2 element with text 序章.  The
code disagrees: the scanner never consumes the closing ］ of a
command (its own unit test test_command expects one token for
［＃改ページ］ and the code produces two), so the heading block
contains ］序章, a stray ］ trails at the root, and the emitted
XHTML contains the h2 element with text ］序章 and an extra
paragraph ］ instead. -/
theorem C1_heading_scenario_code_bug :
    parse_blocks (parse ((parse_aozora c1_input).toOption.getD [])).items
      = .ok c1_root ∧
    c1_root.elements.length = 2 ∧
    text_to_xhtml c1_input =
      some (generate c1_root ("T".toList)) ∧
    containsSeq ("<h2 id=\"midashi-1\">序章</h2>".toList)
      (generate c1_root ("T".toList)).1 = false ∧
    containsSeq ("<h2 id=\"midashi-1\">］序章</h2>".toList)
      (generate c1_root ("T".toList)).1 = true ∧
    containsSeq ("<p>序章</p>".toList)
      (generate c1_root ("T".toList)).1 = false ∧
    containsSeq ("<p>］</p>".toList)
      (generate c1_root ("T".toList)).1 = true := by
  have h := c1_render_eval
  refine ⟨rfl, rfl, rfl, ?_, ?_, ?_, ?_⟩ <;>
    · simp only [generate]
      rw [h]
      decide

/-- Claim C2, counterexample: the command token produced from
［＃改ページ］ has span 0 to 6 while the closing ］ sits at index 6,
so the command span ends at the ］ and does not include it (the
claim asks for span end 7); the ］ is then re-scanned as a text
token. -/
theorem C2_counterexample :
    parse_aozora ("［＃改ページ］".toList) =
      .ok [.Command ⟨"改ページ".toList, ⟨0, 6⟩⟩,
           .Text ⟨"］".toList, .Other, ⟨6, 7⟩⟩] ∧
    ("［＃改ページ］".toList)[6]? = some '］' := ⟨rfl, rfl⟩

/-- Claim C3, counterexample: a command token whose body the
recogniser cannot classify produces no item at all: the recogniser
has no Unknown fallback (it returns none) and the parser appends
nothing, so the item list of the parsed document is empty where the
claim expects an Unknown command item. -/
theorem C3_counterexample :
    parse_command c3_token = none ∧
    parse [.Newline ⟨0, 1⟩, .Newline ⟨1, 2⟩, .Command c3_token] =
      ⟨⟨[], []⟩, []⟩ := ⟨rfl, rfl⟩

/-- Claim C3, amended: when the recogniser returns none for a
command body, the parser flushes the pending text buffer and drops
the command: the unrecognised annotation contributes no item and is
not carried forward. -/
theorem C3_unknown_command_dropped (fuel : Nat) (c : CommandToken)
    (rest : List AozoraToken) (buffer : List TextToken)
    (acc : List ParsedItem) (h : parse_command c = none) :
    parseLoop (fuel + 1) (.Command c :: rest) false buffer acc =
      parseLoop fuel rest false [] (acc ++ flushBuffer buffer) := by
  simp only [parseLoop, h]

/-- Witness for C3: the amended theorem applied to the concrete
unrecognised body. -/
theorem C3_unknown_command_dropped_witness :
    parse_command c3_token = none ∧
    parseLoop 1 [.Command c3_token] false [] [] =
      parseLoop 0 [] false [] [] :=
  ⟨rfl, C3_unknown_command_dropped 0 c3_token [] [] [] rfl⟩

/-- Claim C4, counterexample: a block auto-closed at end of stream
keeps the span of its begin command only, so its child text item
with span 10 to 20 is not covered by the block span 0 to 5. -/
theorem C4_counterexample :
    parse_blocks [.Command (.CommandBegin .Yokogumi) ⟨0, 5⟩,
                  .Text ⟨"oops".toList, none, ⟨10, 20⟩⟩] = .ok c4_root ∧
    ¬ elementsCovered c4_root.elements := by
  refine ⟨rfl, ?_⟩
  simp [elementsCovered, c4_root, element_span, item_span,
    AozoraBlock.elements]

/-- Claim C5, counterexample: the claim says command items do not
clear the paragraph-start state, so the text あ after a newline and
a command would be checked and warned about; in the code a command
item sets the after-newline flag to false (its comment says a
command is a valid paragraph start), so no warning is emitted even
though あ is not a valid paragraph start. -/
theorem C5_counterexample :
    (lint c5_block []).warnings = [] ∧
    is_valid_paragraph_start ("あ".toList) = false := by
  refine ⟨?_, rfl⟩
  simp [lint, check_paragraph_indent, checkPIElems, check_text_patterns,
    check_text_patterns_aux, AozoraBlock.elements, c5_block]

/-- Helper for C6: one step of the block builder can only fail with
UnexpectedEnd, and only on an end command with at most the root
open. -/
theorem pushItem_error_shape (stack : List AozoraBlock) (i : ParsedItem)
    (err : BlockParseError) (h : pushItem stack i = .error err) :
    ∃ e sp, err = .UnexpectedEnd e sp ∧
      i = .Command (.CommandEnd e) sp ∧ stack.length ≤ 1 := by
  match i with
  | .Command (.CommandBegin b) sp => simp [pushItem] at h
  | .Command (.CommandEnd e) sp =>
      match stack with
      | [] => simp [pushItem] at h; exact ⟨e, sp, h.symm, rfl, by simp⟩
      | [b] => simp [pushItem] at h; exact ⟨e, sp, h.symm, rfl, by simp⟩
      | a :: b :: t => simp [pushItem] at h
  | .Command (.SingleCommand s) sp =>
      match stack with
      | [] => simp [pushItem] at h
      | a :: t => simp [pushItem] at h
  | .Text dt =>
      match stack with
      | [] => simp [pushItem] at h
      | a :: t => simp [pushItem] at h
  | .Newline sp =>
      match stack with
      | [] => simp [pushItem] at h
      | a :: t => simp [pushItem] at h
  | .SpecialCharacter k sp =>
      match stack with
      | [] => simp [pushItem] at h
      | a :: t => simp [pushItem] at h

/-- Helper for C6: the whole fold of the block builder can only
fail with UnexpectedEnd. -/
theorem foldlM_pushItem_error (items : List ParsedItem) :
    ∀ (stack : List AozoraBlock) (err : BlockParseError),
    List.foldlM pushItem stack items = .error err →
    ∃ e sp, err = .UnexpectedEnd e sp := by
  induction items with
  | nil => intro stack err h; simp [List.foldlM, pure, Except.pure] at h
  | cons i rest ih =>
      intro stack err h
      rw [List.foldlM_cons] at h
      cases hp : pushItem stack i with
      | error e =>
          rw [hp] at h
          simp only [bind, Except.bind] at h
          injection h with h2
          obtain ⟨e2, sp, he, _, _⟩ := pushItem_error_shape stack i e hp
          exact ⟨e2, sp, h2 ▸ he⟩
      | ok s2 =>
          rw [hp] at h
          simp only [bind, Except.bind] at h
          exact ih s2 err h

/-- Claim C6: an end command with only the root open fails with
UnexpectedEnd carrying the end tag and span; with at least one
block open it pops the top, merges the end span into the popped
span and appends the block to the new top, for every end tag
whatever the popped decoration was (no tag comparison); and the
block builder as a whole can fail only with UnexpectedEnd. -/
theorem C6_block_end_discipline :
    (∀ (b : AozoraBlock) (e : CommandEnd) (sp : Span),
        pushItem [b] (.Command (.CommandEnd e) sp) =
          .error (.UnexpectedEnd e sp)) ∧
    (∀ (top parent : AozoraBlock) (rest : List AozoraBlock)
        (e : CommandEnd) (sp : Span),
        pushItem (top :: parent :: rest) (.Command (.CommandEnd e) sp) =
          .ok (.mk parent.decoration
            (parent.elements ++
             [.block (.mk top.decoration top.elements (top.span.merge sp))])
            parent.span :: rest)) ∧
    (∀ (items : List ParsedItem) (err : BlockParseError),
        parse_blocks items = .error err →
        ∃ e sp, err = .UnexpectedEnd e sp) := by
  refine ⟨?_, ?_, ?_⟩
  · intro b e sp; rfl
  · intro top parent rest e sp; rfl
  · intro items err h
    unfold parse_blocks at h
    split at h
    case _ e heq => cases h; exact foldlM_pushItem_error items _ err heq
    case _ => cases h
    case _ => cases h

/-- Witness for C6: the error and success cases at concrete
inputs, discharged through the theorem. -/
theorem C6_block_end_discipline_witness :
    pushItem [.mk none [] Span.default]
        (.Command (.CommandEnd .Yokogumi) ⟨1, 2⟩) =
      .error (.UnexpectedEnd .Yokogumi ⟨1, 2⟩) ∧
    (∃ e sp, (BlockParseError.UnexpectedEnd .Yokogumi ⟨1, 2⟩) =
      .UnexpectedEnd e sp) :=
  ⟨C6_block_end_discipline.1 (.mk none [] Span.default) .Yokogumi ⟨1, 2⟩,
   C6_block_end_discipline.2.2 [.Command (.CommandEnd .Yokogumi) ⟨1, 2⟩]
     (.UnexpectedEnd .Yokogumi ⟨1, 2⟩) rfl⟩

/-- Helper for C8: the ruby-base subparser consumes a text prefix
followed by a gloss, returning the texts, the gloss, and the tokens
after the gloss. -/
theorem rubySepScan_success (temp : List TextToken) (rc : List Char)
    (rsp : Span) (r2 : List AozoraToken) :
    rubySepScan (temp.map AozoraToken.Text ++ .Ruby rc rsp :: r2) =
      (temp, some (rc, rsp), r2) := by
  induction temp with
  | nil => rfl
  | cons t ts ih => simp [rubySepScan, ih]

/-- Helper for C8: the ruby-base subparser stops at the first token
that is neither text nor a gloss, leaving it in the remainder. -/
theorem rubySepScan_fail (temp : List TextToken) (tok : AozoraToken)
    (r2 : List AozoraToken) (h1 : isTextTok tok = false)
    (h2 : ∀ c sp, tok ≠ .Ruby c sp) :
    rubySepScan (temp.map AozoraToken.Text ++ tok :: r2) =
      (temp, none, tok :: r2) := by
  induction temp with
  | nil =>
      cases tok with
      | Text t => simp [isTextTok] at h1
      | Ruby c sp => exact absurd rfl (h2 c sp)
      | RubySeparator sp => rfl
      | Command c => rfl
      | Newline sp => rfl
      | Odoriji sp => rfl
      | DakutenOdoriji sp => rfl
  | cons t ts ih => simp [rubySepScan, ih]

/-- Helper for C8: the ruby-base subparser at end of input returns
the accumulated texts with no gloss and nothing left. -/
theorem rubySepScan_eoi (temp : List TextToken) :
    rubySepScan (temp.map AozoraToken.Text) = (temp, none, []) := by
  induction temp with
  | nil => rfl
  | cons t ts ih => simp [rubySepScan, ih]

/-- Claim C8: a ruby base marker first flushes the pending buffer;
then (success case) a run of text tokens closed by a gloss becomes
exactly one decorated text whose text is the concatenation of the
run, whose ruby is the gloss content, and whose span merges the
marker through the gloss; (failure case) any other terminator, or
end of input, emits the literal ｜ and then the accumulated run as
a ruby-less item when the run is nonempty, leaving the terminator
to the outer loop.  In particular the second end-to-end scenario
yields the single decorated item. -/
theorem C8_ruby_base_marker :
    (∀ (fuel : Nat) (sep : Span) (temp : List TextToken) (rc : List Char)
        (rsp : Span) (r2 : List AozoraToken) (buffer : List TextToken)
        (acc : List ParsedItem),
        parseLoop (fuel + 1)
            (.RubySeparator sep ::
              (temp.map AozoraToken.Text ++ .Ruby rc rsp :: r2))
            false buffer acc =
          parseLoop fuel r2 false []
            ((acc ++ flushBuffer buffer) ++
             [.Text ⟨joinContents temp, some rc,
               (if temp = [] then sep
                else sep.merge (buffer_span temp)).merge rsp⟩])) ∧
    (∀ (fuel : Nat) (sep : Span) (temp : List TextToken)
        (tok : AozoraToken) (r2 : List AozoraToken)
        (buffer : List TextToken) (acc : List ParsedItem),
        isTextTok tok = false → (∀ c sp, tok ≠ .Ruby c sp) →
        parseLoop (fuel + 1)
            (.RubySeparator sep :: (temp.map AozoraToken.Text ++ tok :: r2))
            false buffer acc =
          parseLoop fuel (tok :: r2) false []
            (((acc ++ flushBuffer buffer) ++ [.Text ⟨"｜".toList, none, sep⟩]) ++
             (if temp = [] then []
              else [.Text ⟨joinContents temp, none, buffer_span temp⟩]))) ∧
    (∀ (fuel : Nat) (sep : Span) (temp : List TextToken)
        (buffer : List TextToken) (acc : List ParsedItem),
        parseLoop (fuel + 1)
            (.RubySeparator sep :: temp.map AozoraToken.Text)
            false buffer acc =
          parseLoop fuel [] false []
            (((acc ++ flushBuffer buffer) ++ [.Text ⟨"｜".toList, none, sep⟩]) ++
             (if temp = [] then []
              else [.Text ⟨joinContents temp, none, buffer_span temp⟩]))) ∧
    parse ((parse_aozora ("T\nA\n｜青空文庫《あおぞらぶんこ》".toList)).toOption.getD [])
      = ⟨⟨"T".toList, "A".toList⟩,
         [.Text ⟨"青空文庫".toList, some ("あおぞらぶんこ".toList),
           ⟨4, 18⟩⟩]⟩ := by
  refine ⟨?_, ?_, ?_, rfl⟩
  · intro fuel sep temp rc rsp r2 buffer acc
    simp only [parseLoop, rubySepScan_success]
  · intro fuel sep temp tok r2 buffer acc h1 h2
    simp only [parseLoop, rubySepScan_fail temp tok r2 h1 h2]
    rfl
  · intro fuel sep temp buffer acc
    simp only [parseLoop, rubySepScan_eoi]
    rfl

/-- Witness for C8: the failure case applied at a marker directly
followed by a newline. -/
theorem C8_ruby_base_marker_witness :
    isTextTok (.Newline ⟨5, 6⟩) = false ∧
    parseLoop 1 [.RubySeparator ⟨4, 5⟩, .Newline ⟨5, 6⟩] false [] [] =
      parseLoop 0 [.Newline ⟨5, 6⟩] false []
        [.Text ⟨"｜".toList, none, ⟨4, 5⟩⟩] :=
  ⟨rfl,
   C8_ruby_base_marker.2.1 0 ⟨4, 5⟩ [] (.Newline ⟨5, 6⟩) [] [] []
     rfl (fun _ _ h => AozoraToken.noConfusion h)⟩

/-- Helper for C9: the is-heading flag of a resolved decoration is
the specification-side table-of-contents heading test. -/
theorem resolve_isHeading (d : Option CommandBegin) :
    (resolve_decoration d).2.2.2 = isTocHeading d := by
  match d with
  | none => rfl
  | some (.Midashi m) =>
      cases hm : m.kind <;> simp [resolve_decoration, isTocHeading, hm]
  | some (.Alignment a) => rfl
  | some (.Bouten b) => rfl
  | some (.Bousen b) => rfl
  | some .Bold => rfl
  | some .Italic => rfl
  | some .Kakomikei => rfl
  | some .Yokogumi => rfl
  | some (.Jitsume n) => rfl

/-- Helper for C9: rendering one inline item adds one toc entry for
a reference-form heading command and none otherwise. -/
theorem renderItem_toc (st : GenState) (i : ParsedItem) :
    (renderItem st i).toc_entries.length =
      st.toc_entries.length + (if isInlineMidashi i then 1 else 0) := by
  match i with
  | .Text dt =>
      cases hr : dt.ruby <;> simp [renderItem, withBody, isInlineMidashi, hr]
  | .Newline sp => simp [renderItem, isInlineMidashi]
  | .Command (.SingleCommand sc) sp =>
      cases sc <;> simp [renderItem, withBody, isInlineMidashi] <;>
        split <;> simp
  | .Command (.CommandBegin b) sp => simp [renderItem, isInlineMidashi]
  | .Command (.CommandEnd e) sp => simp [renderItem, isInlineMidashi]
  | .SpecialCharacter k sp =>
      cases k <;> simp [renderItem, withBody, isInlineMidashi]

/-- Helper for C9: folding the renderer over a buffer adds one toc
entry per reference-form heading command in the buffer. -/
theorem foldl_renderItem_toc (buf : List ParsedItem) :
    ∀ st : GenState,
    (buf.foldl renderItem st).toc_entries.length =
      st.toc_entries.length + (buf.filter isInlineMidashi).length := by
  induction buf with
  | nil => intro st; simp
  | cons i rest ih =>
      intro st
      rw [List.foldl_cons, ih (renderItem st i), renderItem_toc]
      by_cases hm : isInlineMidashi i <;> simp [hm] <;> omega

/-- Helper for C9: flushing a paragraph adds one toc entry per
reference-form heading command in the buffer. -/
theorem flush_paragraph_toc (st : GenState) (buf : List ParsedItem)
    (h : Bool) :
    (flush_paragraph st buf h).toc_entries.length =
      st.toc_entries.length + (buf.filter isInlineMidashi).length := by
  unfold flush_paragraph
  by_cases hb : buf = []
  · simp [hb]
  · simp only [hb, if_neg]
    cases h <;> simp [withBody, foldl_renderItem_toc]

/-- Helper for C9: opening a block adds one toc entry exactly for a
Normal or Window heading decoration. -/
theorem block_open_toc (st : GenState) (b : AozoraBlock) :
    (block_open st b).1.toc_entries.length =
      st.toc_entries.length +
        (if isTocHeading b.decoration then 1 else 0) := by
  simp only [block_open]
  rw [resolve_isHeading]
  by_cases hd : isTocHeading b.decoration <;>
    simp only [hd, if_true, if_false, withBody] <;>
    split_ifs <;> simp [withBody]

/-- Helper for C9: the children loop of the renderer appends one
toc entry per pending reference-form heading in the buffer, per
Normal or Window heading block, and per reference-form heading
command among the elements, recursively. -/
theorem renderElems_toc (st : GenState) (buffer : List ParsedItem)
    (h : Bool) (es : List BlockElement) :
    (renderElems st buffer h es).toc_entries.length =
      st.toc_entries.length + (buffer.filter isInlineMidashi).length +
        tocCountElems es := by
  induction st, buffer, h, es using renderElems.induct
  case case1 st buf hh =>
    simp [renderElems, flush_paragraph_toc, tocCountElems]
  case case2 st hh rest sp st1 ih =>
    cases hh <;>
      simp_all [renderElems, withBody, tocCountElems, isInlineMidashi, st1]
  case case3 st buf hh rest sp hne ih =>
    simp only [renderElems, if_neg hne, ih, flush_paragraph_toc,
      tocCountElems, isInlineMidashi]
    simp
  case case4 st buf hh rest b sp ih =>
    simp only [renderElems, ih, flush_paragraph_toc, tocCountElems,
      isInlineMidashi]
    simp
  case case5 st buf hh rest e sp ih =>
    simp only [renderElems, ih, flush_paragraph_toc, tocCountElems,
      isInlineMidashi]
    simp
  case case6 st buf hh rest mc sp st1 st2 ih =>
    have h2 : st2.toc_entries.length =
        st.toc_entries.length + (buf.filter isInlineMidashi).length + 1 := by
      simp only [st2, st1, renderItem_toc, flush_paragraph_toc,
        isInlineMidashi]
      simp
    simp only [renderElems, ih, h2, tocCountElems, isInlineMidashi]
    simp
    omega
  case case7 st buf hh i rest hn1 hn2 hn3 hn4 ih =>
    have hi : isInlineMidashi i = false := by
      cases i with
      | Command cmd sp =>
          cases cmd with
          | SingleCommand sc =>
              cases sc with
              | Midashi mc => exact absurd rfl (hn4 mc sp)
              | _ => rfl
          | _ => rfl
      | _ => rfl
    simp only [renderElems, ih]
    rw [List.filter_append]
    simp [hi, tocCountElems]
  case case8 st buf hh dec es sp rest st1 ob st2 close_tag bh st3 st4
      ih1 ih2 ih3 =>
    simp only [renderElems]
    simp only [st4, st3, st2, close_tag, bh, ob, st1] at ih1 ih3
    generalize hA :
      block_open (flush_paragraph st buf hh) (AozoraBlock.mk dec es sp)
        = OB at ih1 ih3 ⊢
    generalize hB : renderElems OB.1 [] OB.2.2 es = B at ih1 ih3 ⊢
    simp only [dite_eq_ite] at ih3
    rw [ih3]
    
    have hopen := block_open_toc (flush_paragraph st buf hh)
      (AozoraBlock.mk dec es sp)
    rw [hA] at hopen
    simp only [AozoraBlock.decoration] at hopen
    by_cases hc : OB.2.1 = [] <;>
      · simp [hc, withBody, ih1, hopen, flush_paragraph_toc, tocCountElems]
        omega

/-- Claim C9: for every block tree and title, the number of
table-of-contents entries returned by the emitter equals the number
of heading blocks of Normal or Window kind plus the number of
reference-form (inline) heading commands in the tree; Inline
(dogyo) heading blocks contribute nothing. -/
theorem C9_toc_cardinality (b : AozoraBlock) (title : List Char) :
    (generate b title).2.length = tocCountBlock b := by
  cases b with
  | mk dec es sp =>
      simp only [generate, render_block, renderElems_toc]
      simp [tocCountElems, tocCountBlock, AozoraBlock.decoration,
        AozoraBlock.elements]

/-- Helper for C5 and others: membership in a conditional singleton
list of warnings determines the warning kind. -/
theorem mem_ite_warning {w : LintWarning} {c : Prop} [Decidable c]
    {k : LintWarningKind} {sp : Span} {m : List Char}
    (h : w ∈ (if c then [LintWarning.warning k sp m] else [])) :
    w.kind = k := by
  split at h
  · rw [List.mem_singleton] at h
    rw [h]
    rfl
  · cases h

/-- Helper for C5: every warning of the paragraph-indent check is a
missing-indent warning. -/
theorem checkPI_kinds (aft : Bool) (es : List BlockElement) :
    ∀ w ∈ checkPIElems aft es, w.kind = .MissingParagraphIndent := by
  induction aft, es using checkPIElems.induct <;> intro w hw
  case case1 aft =>
    simp only [checkPIElems] at hw
    cases hw
  case case2 aft sp rest ih =>
    simp only [checkPIElems] at hw
    exact ih w hw
  case case3 dt rest ih =>
    simp only [checkPIElems, if_pos trivial] at hw
    rcases List.mem_append.mp hw with h | h
    · exact mem_ite_warning h
    · exact ih w h
  case case4 aft dt rest hne ih =>
    have ha : aft = false := by
      cases aft
      · rfl
      · exact absurd rfl hne
    subst ha
    simp only [checkPIElems] at hw
    exact ih w hw
  case case5 aft i rest hn1 hn2 ih =>
    simp only [checkPIElems] at hw
    exact ih w hw
  case case6 aft d es2 sp rest ih1 ih2 =>
    simp only [checkPIElems] at hw
    rcases List.mem_append.mp hw with h | h
    · exact ih1 w h
    · exact ih2 w h

/-- Helper for C5: the character-pattern check never emits a
missing-indent warning. -/
theorem textPatterns_kinds (fuel : Nat) (cs : List Char) (pos : Nat) :
    ∀ w ∈ check_text_patterns_aux fuel cs pos,
      w.kind ≠ .MissingParagraphIndent := by
  induction fuel, cs, pos using check_text_patterns_aux.induct <;> intro w hw
  case case1 cs pos =>
    simp only [check_text_patterns_aux] at hw
    cases hw
  case case2 fuel pos =>
    simp only [check_text_patterns_aux] at hw
    cases hw
  case case3 fuel c rest pos hcond run count ih =>
    simp only [check_text_patterns_aux] at hw
    rw [if_pos hcond] at hw
    rcases List.mem_append.mp hw with h | h
    · rcases List.mem_append.mp h with h | h
      · rw [mem_ite_warning h]
        intro hk
        cases hk
      · rw [mem_ite_warning h]
        intro hk
        cases hk
    · exact ih w h
  case case4 fuel c rest pos hcond ih =>
    simp only [check_text_patterns_aux] at hw
    rw [if_neg hcond] at hw
    rcases List.mem_append.mp hw with h | h
    · rcases List.mem_append.mp h with h | h
      · rw [mem_ite_warning h]
        intro hk
        cases hk
      · split at h
        · cases hh : rest.head? with
          | none =>
              rw [hh] at h
              cases h
          | some nx =>
              rw [hh] at h
              rw [mem_ite_warning h]
              intro hk
              cases hk
        · cases h
    · exact ih w h

/-- Helper for C5: the stateful paragraph-indent walk equals the
positional specification-side enumeration; the state flag is the
paragraph-start test on the previous sibling. -/
theorem checkPI_eq_expected (prev : Option BlockElement)
    (es : List BlockElement) :
    checkPIElems (isParaStartPrev prev) es = expectedPIFrom prev es := by
  induction prev, es using expectedPIFrom.induct
  case case1 prev =>
    simp only [checkPIElems, expectedPIFrom]
  case case2 prev e rest ihm ih =>
    match e with
    | .item (.Newline sp) =>
        simp only [checkPIElems, expectedPIFrom]
        rw [← ih]
        simp [isParaStartPrev]
    | .item (.Text dt) =>
        cases hp : isParaStartPrev prev with
        | true =>
            simp only [checkPIElems, expectedPIFrom, hp]
            rw [← ih]
            simp [isParaStartPrev]
        | false =>
            simp only [checkPIElems, expectedPIFrom, hp]
            rw [← ih]
            simp [isParaStartPrev]
    | .item (.Command cmd sp) =>
        simp only [checkPIElems, expectedPIFrom]
        rw [← ih]
        simp [isParaStartPrev]
    | .item (.SpecialCharacter k sp) =>
        simp only [checkPIElems, expectedPIFrom]
        rw [← ih]
        simp [isParaStartPrev]
    | .block (.mk d es2 sp) =>
        simp only [checkPIElems, expectedPIFrom]
        rw [← ih]
        have ihm2 : checkPIElems (isParaStartPrev none) es2 =
            expectedPIFrom none es2 := ihm
        rw [← ihm2]
        simp [isParaStartPrev]

/-- Claim C5, amended: the missing-indent warnings of the linter
are exactly one warning per text element that heads a children list
(of the root or of a nested block) or directly follows a newline
item and whose first character is not a valid paragraph start; any
other intervening item, including a command, clears the
paragraph-start state, so a text after newline and command is not
checked. -/
theorem C5_missing_indent_characterization (b : AozoraBlock)
    (txt : List Char) :
    (lint b txt).warnings.filter
        (fun w => decide (w.kind = LintWarningKind.MissingParagraphIndent))
      = expectedPIFrom none b.elements := by
  show (lint b txt).warnings.filter
      (fun w => decide (w.kind = LintWarningKind.MissingParagraphIndent))
    = expectedPIFrom none b.elements
  unfold lint
  rw [List.filter_append]
  have h1 : (check_paragraph_indent b).filter
      (fun w => decide (w.kind = LintWarningKind.MissingParagraphIndent))
      = check_paragraph_indent b := by
    apply List.filter_eq_self.mpr
    intro w hw
    simp [checkPI_kinds true b.elements w hw]
  have h2 : (check_text_patterns txt).filter
      (fun w => decide (w.kind = LintWarningKind.MissingParagraphIndent))
      = [] := by
    apply List.filter_eq_nil_iff.mpr
    intro w hw
    simp [textPatterns_kinds txt.length txt 0 w hw]
  rw [h1, h2, List.append_nil]
  unfold check_paragraph_indent
  have h3 := checkPI_eq_expected none b.elements
  simpa [isParaStartPrev] using h3

/-- Helper: dropping the take-while prefix leaves the drop-while
suffix. -/
theorem drop_takeWhile_len {α : Type} (p : α → Bool) :
    ∀ l : List α, l.drop (l.takeWhile p).length = l.dropWhile p := by
  intro l
  induction l with
  | nil => rfl
  | cons x xs ih =>
      by_cases hp : p x
      · simp [List.takeWhile_cons, List.dropWhile_cons, hp, ih]
      · simp [List.takeWhile_cons, List.dropWhile_cons, hp]

/-- Helper: the head of the drop-while suffix fails the predicate. -/
theorem head_dropWhile_false {α : Type} (p : α → Bool) :
    ∀ (l : List α) (y : α) (ys : List α),
    l.dropWhile p = y :: ys → p y = false := by
  intro l
  induction l with
  | nil => intro y ys h; cases h
  | cons x xs ih =>
      intro y ys h
      by_cases hp : p x
      · rw [List.dropWhile_cons, if_pos hp] at h
        exact ih y ys h
      · rw [List.dropWhile_cons, if_neg hp] at h
        cases h
        exact Bool.eq_false_iff.mpr hp

/-- Helper: indexing below the take-while prefix length agrees with
indexing the original list. -/
theorem getElem?_takeWhile {α : Type} (p : α → Bool) (l : List α)
    (i : Nat) (hi : i < (l.takeWhile p).length) :
    l[i]? = (l.takeWhile p)[i]? := by
  obtain ⟨t, ht⟩ := (List.takeWhile_prefix p (l := l))
  conv_lhs => rw [← ht]
  rw [List.getElem?_append]
  rw [if_pos hi]

/-- Helper: a list element below the drop index is recovered from
the head of the dropped list. -/
theorem getElem?_of_drop_cons {α : Type} {l : List α} {n : Nat}
    {y : α} {ys : List α} (h : l.drop n = y :: ys) : l[n]? = some y := by
  rw [← List.head?_drop, h]
  rfl

/-- Helper: prepending a token to a successful scan is successful
with the token in front. -/
theorem consTok_ok {t : AozoraToken}
    {r : Except TokenizeError (List AozoraToken)}
    {toks : List AozoraToken} (h : consTok t r = .ok toks) :
    ∃ ts, r = .ok ts ∧ toks = t :: ts := by
  cases r with
  | error e => cases h
  | ok ts =>
      refine ⟨ts, rfl, ?_⟩
      cases h
      rfl

/-- Helper: prepending a token propagates an error unchanged. -/
theorem consTok_error {t : AozoraToken}
    {r : Except TokenizeError (List AozoraToken)} {e : TokenizeError}
    (h : consTok t r = .error e) : r = .error e := by
  cases r with
  | error e2 => cases h; rfl
  | ok ts => cases h

/-- Helper: token well-formedness transfers from a dropped suffix
to the whole list. -/
theorem tokGood_lift (cs : List Char) (pos d : Nat) (t : AozoraToken)
    (hd : d ≤ cs.length)
    (h : TokGood (cs.drop d) (pos + d) t) : TokGood cs pos t := by
  obtain ⟨h1, h2, h3, h4⟩ := h
  refine ⟨by omega, h2, ?_, ?_⟩
  · intro content sp hsp
    rcases h3 content sp hsp with hc | hc
    · left
      have hs1 : pos + d ≤ sp.start := by
        have := h1
        rw [hsp] at this h2
        exact this
      have hs2 : sp.start < sp.stop := by
        have := h2
        rw [hsp] at this
        exact this
      rw [List.getElem?_drop] at hc
      rw [← hc]
      congr 1
      omega
    · right
      rw [List.length_drop] at hc
      omega
  · intro ct hct
    obtain ⟨hc1, hc2, hc3⟩ := h4 ct hct
    have hs1 : pos + d ≤ ct.span.start := by
      have := h1
      rw [hct] at this
      exact this
    have hs2 : ct.span.start < ct.span.stop := by
      have := h2
      rw [hct] at this
      exact this
    rw [List.getElem?_drop] at hc1 hc2 hc3
    refine ⟨?_, ?_, ?_⟩
    · rw [← hc1]; congr 1; omega
    · rw [← hc2]; congr 1; omega
    · rw [← hc3]; congr 1; omega

/-- Helper: the textual cause of an error transfers from a dropped
suffix to the whole list. -/
theorem errGood_lift (cs : List Char) (pos d : Nat) (sp : Span)
    (hd : d ≤ cs.length)
    (h : ErrGood (cs.drop d) (pos + d) sp) : ErrGood cs pos sp := by
  obtain ⟨h1, h2, h3, h4, h5, h6⟩ := h
  rw [List.getElem?_drop] at h3 h4
  refine ⟨by omega, h2, ?_, ?_, ?_, ?_⟩
  · rw [← h3]; congr 1; omega
  · rw [← h4]; congr 1; omega
  · intro k hk1 hk2
    obtain ⟨ch, hc, hne, hws⟩ := h5 k hk1 hk2
    rw [List.getElem?_drop] at hc
    refine ⟨ch, ?_, hne, hws⟩
    rw [← hc]
    congr 1
    omega
  · rcases h6 with hc | ⟨ch, hc, hws⟩
    · left
      rw [List.length_drop] at hc
      omega
    · right
      rw [List.getElem?_drop] at hc
      refine ⟨ch, ?_, hws⟩
      rw [← hc]
      congr 1
      omega

/-- Helper: the take-while prefix is no longer than the list. -/
theorem takeWhile_length_le {α : Type} (p : α → Bool) (l : List α) :
    (l.takeWhile p).length ≤ l.length :=
  (List.takeWhile_prefix p).length_le

/-- Helper: a text token starting at the scan position with a
nonempty span is well formed. -/
theorem tokGood_text (cs : List Char) (pos : Nat) (content : List Char)
    (k : TextKind) (n : Nat) :
    TokGood cs pos (.Text ⟨content, k, ⟨pos, pos + 1 + n⟩⟩) :=
  ⟨le_refl _, by simp [tokenSpan]; omega,
   fun _ _ hh => AozoraToken.noConfusion hh,
   fun _ hh => AozoraToken.noConfusion hh⟩

/-- Helper: the shared argument for the five text-run arms of the
scanner: the emitted token is well formed and the tokens of the
recursive scan lift along the consumed run. -/
theorem run_case_good (fuel : Nat) (c : Char) (rest : List Char)
    (pos : Nat) (k : TextKind) (p : Char → Bool) (t0 : AozoraToken)
    (rest2 : List Char) (pos2 : Nat)
    (heq : textRun k p c rest pos = (t0, rest2, pos2))
    (toks : List AozoraToken)
    (h : consTok t0 (tokenizeAux fuel rest2 pos2) = .ok toks)
    (ih : ∀ toks2, tokenizeAux fuel rest2 pos2 = .ok toks2 →
        ∀ t ∈ toks2, TokGood rest2 pos2 t) :
    ∀ t ∈ toks, TokGood (c :: rest) pos t := by
  obtain ⟨ts, hr, htoks⟩ := consTok_ok h
  subst htoks
  simp only [textRun] at heq
  injection heq with i1 i23
  injection i23 with i2 i3
  intro t ht
  cases ht with
  | head =>
      rw [← i1]
      exact tokGood_text _ _ _ _ _
  | tail b ht2 =>
      refine tokGood_lift _ pos (1 + (rest.takeWhile p).length) t
        (by simp; have := takeWhile_length_le p rest; omega) ?_
      rw [show (c :: rest).drop (1 + (rest.takeWhile p).length)
          = rest.drop (rest.takeWhile p).length from by
        rw [Nat.add_comm]
        exact List.drop_succ_cons]
      rw [i2]
      rw [show pos + (1 + (rest.takeWhile p).length)
          = pos + 1 + (rest.takeWhile p).length from by omega]
      rw [i3]
      exact ih ts hr t ht2

/-- Helper: every token of a successful scan of the suffix cs
starting at position pos is well formed in the sense of TokGood:
gloss spans end one past their closing 》 (or at end of input), and
command spans have ［＃ at the start and end exactly at the
unconsumed ］. -/
theorem tokenizeAux_ok_good (fuel : Nat) (cs : List Char) (pos : Nat) :
    ∀ toks, tokenizeAux fuel cs pos = .ok toks →
    ∀ t ∈ toks, TokGood cs pos t := by
  induction fuel, cs, pos using tokenizeAux.induct <;> intro toks h t ht
  case case1 cs pos =>
    simp only [tokenizeAux] at h
    cases h
    cases ht
  case case2 fuel pos =>
    simp only [tokenizeAux] at h
    cases h
    cases ht
  case case3 fuel rest pos content head rest2 hdrop ih =>
    simp only [content] at hdrop ih
    simp [tokenizeAux, hdrop] at h
    obtain ⟨ts, hr, htoks⟩ := consTok_ok h
    subst htoks
    have hhead : head = '》' := by
      have hfail := head_dropWhile_false _ rest head rest2
        (by rw [← drop_takeWhile_len]; exact hdrop)
      simpa [notRubyClose] using hfail
    have hlt : (List.takeWhile notRubyClose rest).length < rest.length := by
      by_contra hc
      rw [List.drop_eq_nil_iff.mpr (by omega)] at hdrop
      cases hdrop
    cases ht with
    | head =>
        refine ⟨by simp [tokenSpan], by simp [tokenSpan]; omega, ?_,
          fun _ hh => AozoraToken.noConfusion hh⟩
        intro content2 sp2 heq2
        injection heq2 with hc2 hs2
        subst hc2
        subst hs2
        left
        rw [show pos + (List.takeWhile notRubyClose rest).length + 2 - 1 - pos
            = (List.takeWhile notRubyClose rest).length + 1 from by omega]
        rw [List.getElem?_cons_succ]
        rw [getElem?_of_drop_cons hdrop, hhead]
    | tail b ht2 =>
        refine tokGood_lift ('《' :: rest) pos
          ((List.takeWhile notRubyClose rest).length + 2) t
          (by simp; omega) ?_
        rw [show ('《' :: rest).drop
            ((List.takeWhile notRubyClose rest).length + 2) =
            (rest.drop (List.takeWhile notRubyClose rest).length).drop 1 from by
          rw [List.drop_drop]
          exact List.drop_succ_cons]
        rw [hdrop]
        rw [show pos + ((List.takeWhile notRubyClose rest).length + 2)
            = pos + (List.takeWhile notRubyClose rest).length + 2 from by omega]
        exact ih ts hr t ht2
  case case4 fuel rest pos content hdrop ih =>
    simp only [content] at hdrop ih
    simp [tokenizeAux, hdrop] at h
    obtain ⟨ts, hr, htoks⟩ := consTok_ok h
    subst htoks
    have hlen : (List.takeWhile notRubyClose rest).length = rest.length := by
      have h1 : rest.length ≤ (List.takeWhile notRubyClose rest).length :=
        List.drop_eq_nil_iff.mp hdrop
      have h2 : (List.takeWhile notRubyClose rest).length ≤ rest.length :=
        takeWhile_length_le _ rest
      omega
    cases ht with
    | head =>
        refine ⟨by simp [tokenSpan], by simp [tokenSpan]; omega, ?_,
          fun _ hh => AozoraToken.noConfusion hh⟩
        intro content2 sp2 heq2
        injection heq2 with hc2 hs2
        subst hc2
        subst hs2
        right
        simp
        omega
    | tail b ht2 =>
        refine tokGood_lift ('《' :: rest) pos
          ((List.takeWhile notRubyClose rest).length + 1) t
          (by simp; omega) ?_
        rw [show ('《' :: rest).drop
            ((List.takeWhile notRubyClose rest).length + 1) =
            rest.drop (List.takeWhile notRubyClose rest).length
          from List.drop_succ_cons]
        rw [hdrop]
        rw [show pos + ((List.takeWhile notRubyClose rest).length + 1)
            = pos + (List.takeWhile notRubyClose rest).length + 1 from by omega]
        exact ih ts hr t ht2
  case case5 fuel rest pos hne ih =>
    simp [tokenizeAux] at h
    obtain ⟨ts, hr, htoks⟩ := consTok_ok h
    subst htoks
    cases ht with
    | head =>
        exact ⟨by simp [tokenSpan], by simp [tokenSpan],
          fun _ _ hh => AozoraToken.noConfusion hh,
          fun _ hh => AozoraToken.noConfusion hh⟩
    | tail b ht2 => exact tokGood_lift _ pos 1 t (by simp) (ih ts hr t ht2)
  case case6 fuel rest pos h1 h2 ih =>
    simp [tokenizeAux] at h
    obtain ⟨ts, hr, htoks⟩ := consTok_ok h
    subst htoks
    cases ht with
    | head =>
        exact ⟨by simp [tokenSpan], by simp [tokenSpan],
          fun _ _ hh => AozoraToken.noConfusion hh,
          fun _ hh => AozoraToken.noConfusion hh⟩
    | tail b ht2 => exact tokGood_lift _ pos 1 t (by simp) (ih ts hr t ht2)
  case case7 fuel pos rest2 h1 h2 h3 ih =>
    simp [tokenizeAux] at h
    obtain ⟨ts, hr, htoks⟩ := consTok_ok h
    subst htoks
    cases ht with
    | head =>
        exact ⟨by simp [tokenSpan], by simp [tokenSpan],
          fun _ _ hh => AozoraToken.noConfusion hh,
          fun _ hh => AozoraToken.noConfusion hh⟩
    | tail b ht2 => exact tokGood_lift _ pos 3 t (by simp) (ih ts hr t ht2)
  case case8 fuel pos rest2 h1 h2 h3 ih =>
    simp [tokenizeAux] at h
    obtain ⟨ts, hr, htoks⟩ := consTok_ok h
    subst htoks
    cases ht with
    | head =>
        exact ⟨by simp [tokenSpan], by simp [tokenSpan],
          fun _ _ hh => AozoraToken.noConfusion hh,
          fun _ hh => AozoraToken.noConfusion hh⟩
    | tail b ht2 => exact tokGood_lift _ pos 2 t (by simp) (ih ts hr t ht2)
  case case9 fuel rest pos t0 rest2 pos2 hm1 hm2 h1 h2 h3 heq ih =>
    simp [tokenizeAux, heq] at h
    exact run_case_good fuel '／' rest pos .Other is_other t0 rest2 pos2
      heq toks h ih t ht
  case case10 fuel pos rest2 body hdrop h1 h2 h3 h4 =>
    simp [tokenizeAux, hdrop] at h
  case case11 fuel pos rest2 body rest3 h1 h2 h3 h4 hdrop ih =>
    simp only [body] at hdrop ih
    simp [tokenizeAux, hdrop] at h
    obtain ⟨ts, hr, htoks⟩ := consTok_ok h
    subst htoks
    cases ht with
    | head =>
        refine ⟨by simp [tokenSpan], by simp [tokenSpan]; omega,
          fun _ _ hh => AozoraToken.noConfusion hh, ?_⟩
        intro ct hct
        injection hct with hct2
        subst hct2
        refine ⟨?_, by simp, by simp⟩
        rw [show pos + 2 + (List.takeWhile commandBodyChar rest2).length - pos
            = (List.takeWhile commandBodyChar rest2).length + 2 from by omega]
        rw [List.getElem?_cons_succ, List.getElem?_cons_succ]
        exact getElem?_of_drop_cons hdrop
    | tail b ht2 =>
        refine tokGood_lift _ pos
          (2 + (List.takeWhile commandBodyChar rest2).length) t
          (by simp
              have := takeWhile_length_le commandBodyChar rest2
              omega) ?_
        rw [show ('［' :: '＃' :: rest2).drop
            (2 + (List.takeWhile commandBodyChar rest2).length)
            = rest2.drop (List.takeWhile commandBodyChar rest2).length from by
          rw [show 2 + (List.takeWhile commandBodyChar rest2).length =
              (List.takeWhile commandBodyChar rest2).length + 1 + 1
            from by omega]
          rw [List.drop_succ_cons, List.drop_succ_cons]]
        rw [hdrop]
        rw [show pos + (2 + (List.takeWhile commandBodyChar rest2).length)
            = pos + 2 + (List.takeWhile commandBodyChar rest2).length
          from by omega]
        exact ih ts hr t ht2
  case case12 fuel pos rest2 body x rest3 hdrop hne h1 h2 h3 h4 =>
    simp [tokenizeAux, hdrop, hne] at h
  case case13 fuel rest pos t0 rest2 pos2 hm1 h1 h2 h3 h4 heq ih =>
    match rest, heq, hm1, ih with
    | [], heq, hm1, ih =>
        simp [tokenizeAux, heq] at h
        exact run_case_good fuel '［' [] pos .Other is_other t0 rest2 pos2
          heq toks h ih t ht
    | y :: ys, heq, hm1, ih =>
        have hy : ¬(y = '＃') := fun hyy => hm1 ys (by rw [hyy])
        simp [tokenizeAux, hy, heq] at h
        exact run_case_good fuel '［' (y :: ys) pos .Other is_other t0
          rest2 pos2 heq toks h ih t ht
  case case14 fuel c rest pos h1 h2 h3 h4 h5 hk t0 rest2 pos2 heq ih =>
    simp [tokenizeAux, h1, h2, h3, h4, h5, hk, heq] at h
    exact run_case_good fuel c rest pos .Kanji is_kanji t0 rest2 pos2
      heq toks h ih t ht
  case case15 fuel c rest pos h1 h2 h3 h4 h5 h6 hk t0 rest2 pos2 heq ih =>
    simp [tokenizeAux, h1, h2, h3, h4, h5, h6, hk, heq] at h
    exact run_case_good fuel c rest pos .Hiragana is_hiragana t0 rest2 pos2
      heq toks h ih t ht
  case case16 fuel c rest pos h1 h2 h3 h4 h5 h6 h7 hk t0 rest2 pos2 heq ih =>
    simp [tokenizeAux, h1, h2, h3, h4, h5, h6, h7, hk, heq] at h
    exact run_case_good fuel c rest pos .Katakana is_katakana t0 rest2 pos2
      heq toks h ih t ht
  case case17 fuel c rest pos h1 h2 h3 h4 h5 h6 h7 h8 t0 rest2 pos2 heq ih =>
    simp [tokenizeAux, h1, h2, h3, h4, h5, h6, h7, h8, heq] at h
    exact run_case_good fuel c rest pos .Other is_other t0 rest2 pos2
      heq toks h ih t ht

/-- Helper: the characters of the scanned command-body prefix are
neither ］ nor whitespace. -/
theorem commandBody_chars (rest2 : List Char) (k pos : Nat)
    (hk1 : pos + 2 ≤ k)
    (hk2 : k < pos + 2 + (rest2.takeWhile commandBodyChar).length) :
    ∃ ch, ('［' :: '＃' :: rest2)[k - pos]? = some ch ∧
      ch ≠ '］' ∧ is_whitespace ch = false := by
  have hi : k - pos - 2 < (rest2.takeWhile commandBodyChar).length := by
    omega
  have hidx : ('［' :: '＃' :: rest2)[k - pos]? = rest2[k - pos - 2]? := by
    obtain ⟨j, hj⟩ : ∃ j, k - pos = j + 2 := ⟨k - pos - 2, by omega⟩
    rw [hj, List.getElem?_cons_succ, List.getElem?_cons_succ]
    simp
  rw [hidx, getElem?_takeWhile commandBodyChar rest2 _ hi,
    List.getElem?_eq_getElem hi]
  refine ⟨(rest2.takeWhile commandBodyChar).get ⟨k - pos - 2, hi⟩,
    rfl, ?_, ?_⟩
  · have hmem : (rest2.takeWhile commandBodyChar).get ⟨k - pos - 2, hi⟩ ∈
        rest2.takeWhile commandBodyChar := List.get_mem _ _ hi
    have hgood := List.mem_takeWhile_imp hmem
    simp [commandBodyChar] at hgood
    exact hgood.1
  · have hmem : (rest2.takeWhile commandBodyChar).get ⟨k - pos - 2, hi⟩ ∈
        rest2.takeWhile commandBodyChar := List.get_mem _ _ hi
    have hgood := List.mem_takeWhile_imp hmem
    simp [commandBodyChar] at hgood
    exact hgood.2

/-- Helper: the shared error argument for the five text-run arms:
an error of the recursive scan lifts along the consumed run. -/
theorem run_case_err (fuel : Nat) (c : Char) (rest : List Char)
    (pos : Nat) (k : TextKind) (p : Char → Bool) (t0 : AozoraToken)
    (rest2 : List Char) (pos2 : Nat)
    (heq : textRun k p c rest pos = (t0, rest2, pos2)) (sp : Span)
    (h : consTok t0 (tokenizeAux fuel rest2 pos2) =
      .error (.UnclosedCommand sp))
    (ih : ∀ sp2, tokenizeAux fuel rest2 pos2 =
        .error (.UnclosedCommand sp2) → ErrGood rest2 pos2 sp2) :
    ErrGood (c :: rest) pos sp := by
  have hr := consTok_error h
  simp only [textRun] at heq
  injection heq with i1 i23
  injection i23 with i2 i3
  refine errGood_lift _ pos (1 + (rest.takeWhile p).length) sp
    (by simp; have := takeWhile_length_le p rest; omega) ?_
  rw [show (c :: rest).drop (1 + (rest.takeWhile p).length)
      = rest.drop (rest.takeWhile p).length from by
    rw [Nat.add_comm]
    exact List.drop_succ_cons]
  rw [i2]
  rw [show pos + (1 + (rest.takeWhile p).length)
      = pos + 1 + (rest.takeWhile p).length from by omega]
  rw [i3]
  exact ih sp hr

/-- Helper: an unclosed-command error of the scan of the suffix cs
starting at position pos carries its textual cause in the sense of
ErrGood: the span opens a ［＃ command whose body runs into
whitespace or the end of the input with no ］ in between. -/
theorem tokenizeAux_error_good (fuel : Nat) (cs : List Char) (pos : Nat) :
    ∀ sp, tokenizeAux fuel cs pos = .error (.UnclosedCommand sp) →
    ErrGood cs pos sp := by
  induction fuel, cs, pos using tokenizeAux.induct <;> intro sp h
  case case1 cs pos => simp [tokenizeAux] at h
  case case2 fuel pos => simp [tokenizeAux] at h
  case case3 fuel rest pos content head rest2 hdrop ih =>
    simp only [content] at hdrop ih
    simp [tokenizeAux, hdrop] at h
    have hr := consTok_error h
    have hlt : (List.takeWhile notRubyClose rest).length < rest.length := by
      by_contra hc
      rw [List.drop_eq_nil_iff.mpr (by omega)] at hdrop
      cases hdrop
    refine errGood_lift ('《' :: rest) pos
      ((List.takeWhile notRubyClose rest).length + 2) sp
      (by simp; omega) ?_
    rw [show ('《' :: rest).drop
        ((List.takeWhile notRubyClose rest).length + 2) =
        (rest.drop (List.takeWhile notRubyClose rest).length).drop 1 from by
      rw [List.drop_drop]
      exact List.drop_succ_cons]
    rw [hdrop]
    rw [show pos + ((List.takeWhile notRubyClose rest).length + 2)
        = pos + (List.takeWhile notRubyClose rest).length + 2 from by omega]
    exact ih sp hr
  case case4 fuel rest pos content hdrop ih =>
    simp only [content] at hdrop ih
    simp [tokenizeAux, hdrop] at h
    have hr := consTok_error h
    have hlen : (List.takeWhile notRubyClose rest).length = rest.length := by
      have h1 : rest.length ≤ (List.takeWhile notRubyClose rest).length :=
        List.drop_eq_nil_iff.mp hdrop
      have h2 : (List.takeWhile notRubyClose rest).length ≤ rest.length :=
        takeWhile_length_le _ rest
      omega
    refine errGood_lift ('《' :: rest) pos
      ((List.takeWhile notRubyClose rest).length + 1) sp
      (by simp; omega) ?_
    rw [show ('《' :: rest).drop
        ((List.takeWhile notRubyClose rest).length + 1) =
        rest.drop (List.takeWhile notRubyClose rest).length
      from List.drop_succ_cons]
    rw [hdrop]
    rw [show pos + ((List.takeWhile notRubyClose rest).length + 1)
        = pos + (List.takeWhile notRubyClose rest).length + 1 from by omega]
    exact ih sp hr
  case case5 fuel rest pos hne ih =>
    simp [tokenizeAux] at h
    exact errGood_lift _ pos 1 sp (by simp) (ih sp (consTok_error h))
  case case6 fuel rest pos h1 h2 ih =>
    simp [tokenizeAux] at h
    exact errGood_lift _ pos 1 sp (by simp) (ih sp (consTok_error h))
  case case7 fuel pos rest2 h1 h2 h3 ih =>
    simp [tokenizeAux] at h
    exact errGood_lift _ pos 3 sp (by simp) (ih sp (consTok_error h))
  case case8 fuel pos rest2 h1 h2 h3 ih =>
    simp [tokenizeAux] at h
    exact errGood_lift _ pos 2 sp (by simp) (ih sp (consTok_error h))
  case case9 fuel rest pos t0 rest2 pos2 hm1 hm2 h1 h2 h3 heq ih =>
    simp [tokenizeAux, heq] at h
    exact run_case_err fuel '／' rest pos .Other is_other t0 rest2 pos2
      heq sp h ih
  case case10 fuel pos rest2 body hdrop h1 h2 h3 h4 =>
    simp only [body] at hdrop
    simp [tokenizeAux, hdrop] at h
    have hlen : (List.takeWhile commandBodyChar rest2).length
        = rest2.length := by
      have ha : rest2.length ≤ (List.takeWhile commandBodyChar rest2).length :=
        List.drop_eq_nil_iff.mp hdrop
      have hb : (List.takeWhile commandBodyChar rest2).length ≤ rest2.length :=
        takeWhile_length_le _ rest2
      omega
    rw [← h]
    refine ⟨le_refl _, by simp <;> omega, by simp, by simp, ?_, ?_⟩
    · intro k hk1 hk2
      simp only at hk1 hk2
      exact commandBody_chars rest2 k pos hk1 hk2
    · left
      simp
      omega
  case case11 fuel pos rest2 body rest3 h1 h2 h3 h4 hdrop ih =>
    simp only [body] at hdrop ih
    simp [tokenizeAux, hdrop] at h
    have hr := consTok_error h
    refine errGood_lift _ pos
      (2 + (List.takeWhile commandBodyChar rest2).length) sp
      (by simp
          have := takeWhile_length_le commandBodyChar rest2
          omega) ?_
    rw [show ('［' :: '＃' :: rest2).drop
        (2 + (List.takeWhile commandBodyChar rest2).length)
        = rest2.drop (List.takeWhile commandBodyChar rest2).length from by
      rw [show 2 + (List.takeWhile commandBodyChar rest2).length =
          (List.takeWhile commandBodyChar rest2).length + 1 + 1
        from by omega]
      rw [List.drop_succ_cons, List.drop_succ_cons]]
    rw [hdrop]
    rw [show pos + (2 + (List.takeWhile commandBodyChar rest2).length)
        = pos + 2 + (List.takeWhile commandBodyChar rest2).length
      from by omega]
    exact ih sp hr
  case case12 fuel pos rest2 body x rest3 hdrop hne h1 h2 h3 h4 =>
    simp only [body] at hdrop
    simp [tokenizeAux, hdrop, hne] at h
    have hxfail : commandBodyChar x = false :=
      head_dropWhile_false _ rest2 x rest3
        (by rw [← drop_takeWhile_len]; exact hdrop)
    have hxws : is_whitespace x = true := by
      simp [commandBodyChar] at hxfail
      exact hxfail hne
    rw [← h]
    refine ⟨le_refl _, by simp <;> omega, by simp, by simp, ?_, ?_⟩
    · intro k hk1 hk2
      simp only at hk1 hk2
      exact commandBody_chars rest2 k pos hk1 hk2
    · right
      refine ⟨x, ?_, hxws⟩
      simp only
      rw [show pos + 2 + (List.takeWhile commandBodyChar rest2).length - pos
          = (List.takeWhile commandBodyChar rest2).length + 2 from by omega]
      rw [List.getElem?_cons_succ, List.getElem?_cons_succ]
      exact getElem?_of_drop_cons hdrop
  case case13 fuel rest pos t0 rest2 pos2 hm1 h1 h2 h3 h4 heq ih =>
    match rest, heq, hm1, ih with
    | [], heq, hm1, ih =>
        simp [tokenizeAux, heq] at h
        exact run_case_err fuel '［' [] pos .Other is_other t0 rest2 pos2
          heq sp h ih
    | y :: ys, heq, hm1, ih =>
        have hy : ¬(y = '＃') := fun hyy => hm1 ys (by rw [hyy])
        simp [tokenizeAux, hy, heq] at h
        exact run_case_err fuel '［' (y :: ys) pos .Other is_other t0
          rest2 pos2 heq sp h ih
  case case14 fuel c rest pos h1 h2 h3 h4 h5 hk t0 rest2 pos2 heq ih =>
    simp [tokenizeAux, h1, h2, h3, h4, h5, hk, heq] at h
    exact run_case_err fuel c rest pos .Kanji is_kanji t0 rest2 pos2
      heq sp h ih
  case case15 fuel c rest pos h1 h2 h3 h4 h5 h6 hk t0 rest2 pos2 heq ih =>
    simp [tokenizeAux, h1, h2, h3, h4, h5, h6, hk, heq] at h
    exact run_case_err fuel c rest pos .Hiragana is_hiragana t0 rest2 pos2
      heq sp h ih
  case case16 fuel c rest pos h1 h2 h3 h4 h5 h6 h7 hk t0 rest2 pos2 heq ih =>
    simp [tokenizeAux, h1, h2, h3, h4, h5, h6, h7, hk, heq] at h
    exact run_case_err fuel c rest pos .Katakana is_katakana t0 rest2 pos2
      heq sp h ih
  case case17 fuel c rest pos h1 h2 h3 h4 h5 h6 h7 h8 t0 rest2 pos2 heq ih =>
    simp [tokenizeAux, h1, h2, h3, h4, h5, h6, h7, h8, heq] at h
    exact run_case_err fuel c rest pos .Other is_other t0 rest2 pos2
      heq sp h ih

/-- Helper: coverage distributes over list concatenation. -/
theorem elementsCovered_append (xs ys : List BlockElement) :
    elementsCovered (xs ++ ys) ↔ elementsCovered xs ∧ elementsCovered ys := by
  induction xs with
  | nil => simp [elementsCovered]
  | cons e rest ih =>
      cases e with
      | item i => simpa [elementsCovered] using ih
      | block b =>
          cases b with
          | mk d es sp => simp [elementsCovered, ih, and_assoc]

/-- Helper: the block invariant is monotone in the frontier. -/
theorem BlockOK.mono (f f2 : Nat) (b : AozoraBlock) (hff : f ≤ f2)
    (h : BlockOK f b) : BlockOK f2 b := by
  obtain ⟨h1, h2, h3, h4⟩ := h
  exact ⟨h1, h2, le_trans h3 hff,
    fun e he => ⟨(h4 e he).1, le_trans (h4 e he).2 hff⟩⟩

/-- Helper: fixing the root span does not change the children. -/
theorem fixRootSpan_elements (b : AozoraBlock) :
    (fixRootSpan b).elements = b.elements := by
  unfold fixRootSpan
  split
  · simp [AozoraBlock.elements]
  · rfl

/-- Helper: appending a plain item to the top block preserves the
stack invariant, advancing the frontier to the item span's end. -/
theorem StackInv.append_item (f : Nat) (top : AozoraBlock)
    (rest : List AozoraBlock) (i : ParsedItem)
    (hinv : StackInv f (top :: rest))
    (hf : f ≤ (item_span i).start)
    (hse : (item_span i).start ≤ (item_span i).stop) :
    StackInv (item_span i).stop
      (.mk top.decoration (top.elements ++ [.item i]) top.span :: rest) := by
  obtain ⟨hall, hpw⟩ := hinv
  have htop := hall top (List.mem_cons_self _ _)
  obtain ⟨ht1, ht2, ht3, ht4⟩ := htop
  have hfe : f ≤ (item_span i).stop := le_trans hf hse
  refine ⟨?_, ?_⟩
  · intro x hx
    rcases List.mem_cons.mp hx with rfl | hx2
    · refine ⟨?_, ?_, ?_, ?_⟩
      · simp only [AozoraBlock.elements]
        exact (elementsCovered_append _ _).mpr
          ⟨ht1, by simp [elementsCovered]⟩
      · simpa [AozoraBlock.span] using ht2
      · simp only [AozoraBlock.span]
        exact le_trans ht3 hfe
      · intro e he
        simp only [AozoraBlock.elements, AozoraBlock.span] at he ⊢
        rcases List.mem_append.mp he with h1 | h2
        · exact ⟨(ht4 e h1).1, le_trans (ht4 e h1).2 hfe⟩
        · rcases List.mem_singleton.mp h2 with rfl
          exact ⟨le_trans ht2 (le_trans ht3 hf), le_refl _⟩
    · exact BlockOK.mono f _ x hfe (hall x (List.mem_cons_of_mem _ hx2))
  · have hpc := List.pairwise_cons.mp hpw
    exact List.pairwise_cons.mpr
      ⟨fun x hx => by simpa [AozoraBlock.span] using hpc.1 x hx, hpc.2⟩

/-- Helper: pushing a fresh block for a begin command preserves
the stack invariant. -/
theorem StackInv.push_begin (f : Nat) (stack : List AozoraBlock)
    (b : CommandBegin) (sp : Span) (hinv : StackInv f stack)
    (hf : f ≤ sp.start) (hse : sp.start ≤ sp.stop) :
    StackInv sp.stop (.mk (some b) [] sp :: stack) := by
  obtain ⟨hall, hpw⟩ := hinv
  have hfe : f ≤ sp.stop := le_trans hf hse
  refine ⟨?_, ?_⟩
  · intro x hx
    rcases List.mem_cons.mp hx with rfl | hx2
    · exact ⟨by simp [elementsCovered, AozoraBlock.elements],
        by simpa [AozoraBlock.span] using hse,
        by simp [AozoraBlock.span],
        by simp [AozoraBlock.elements]⟩
    · exact BlockOK.mono f _ x hfe (hall x hx2)
  · refine List.pairwise_cons.mpr ⟨?_, hpw⟩
    intro x hx
    have hx3 := hall x hx
    simp only [AozoraBlock.span]
    exact le_trans hx3.2.1 (le_trans hx3.2.2.1 hf)

/-- Helper: popping the top block on an end command, merging its
span with the end's span and attaching it to the parent, preserves
the stack invariant. -/
theorem StackInv.pop_end (f : Nat) (top parent : AozoraBlock)
    (rest : List AozoraBlock) (sp : Span)
    (hinv : StackInv f (top :: parent :: rest))
    (hf : f ≤ sp.start) (hse : sp.start ≤ sp.stop) :
    StackInv sp.stop
      (.mk parent.decoration
        (parent.elements ++
          [.block (.mk top.decoration top.elements (top.span.merge sp))])
        parent.span :: rest) := by
  obtain ⟨hall, hpw⟩ := hinv
  have htop := hall top (List.mem_cons_self _ _)
  obtain ⟨ht1, ht2, ht3, ht4⟩ := htop
  have hpar := hall parent (List.mem_cons_of_mem _ (List.mem_cons_self _ _))
  obtain ⟨hp1, hp2, hp3, hp4⟩ := hpar
  have hpc := List.pairwise_cons.mp hpw
  have hps : parent.span.start ≤ top.span.start :=
    hpc.1 parent (List.mem_cons_self _ _)
  have hfe : f ≤ sp.stop := le_trans hf hse
  refine ⟨?_, ?_⟩
  · intro x hx
    rcases List.mem_cons.mp hx with rfl | hx2
    · refine ⟨?_, ?_, ?_, ?_⟩
      · simp only [AozoraBlock.elements]
        refine (elementsCovered_append _ _).mpr ⟨hp1, ?_⟩
        simp only [elementsCovered]
        refine ⟨?_, ht1, trivial⟩
        intro e he
        simp only [Span.merge]
        exact ⟨le_trans (min_le_left _ _) (ht4 e he).1,
          le_trans (le_trans (ht4 e he).2 (le_trans hf hse))
            (le_max_right _ _)⟩
      · simpa [AozoraBlock.span] using hp2
      · simp only [AozoraBlock.span]
        exact le_trans hp3 hfe
      · intro e he
        simp only [AozoraBlock.elements, AozoraBlock.span] at he ⊢
        rcases List.mem_append.mp he with h1 | h2
        · exact ⟨(hp4 e h1).1, le_trans (hp4 e h1).2 hfe⟩
        · rcases List.mem_singleton.mp h2 with rfl
          simp only [element_span, AozoraBlock.span, Span.merge]
          refine ⟨le_min hps (le_trans hp2 (le_trans hp3 hf)), ?_⟩
          exact max_le (le_trans ht3 hfe) (le_refl _)
    · exact BlockOK.mono f _ x hfe
        (hall x (List.mem_cons_of_mem _ (List.mem_cons_of_mem _ hx2)))
  · have hpc2 := List.pairwise_cons.mp hpc.2
    exact List.pairwise_cons.mpr
      ⟨fun x hx => by simpa [AozoraBlock.span] using hpc2.1 x hx, hpc2.2⟩

/-- Helper: the main fold invariant of the block builder: on a
balanced, span-ordered item sequence, a successful fold from an
invariant stack of matching depth ends with a single covered root
block. -/
theorem foldl_pushItem_covered (items : List ParsedItem) :
    ∀ f d (stack : List AozoraBlock) out,
      orderedFromB f items = true →
      balancedItems items d = true →
      stack.length = d + 1 →
      StackInv f stack →
      items.foldlM pushItem stack = .ok out →
      ∃ top, out = [top] ∧ elementsCovered top.elements := by
  induction items with
  | nil =>
      intro f d stack out ho hb hlen hinv h
      simp only [balancedItems, decide_eq_true_eq] at hb
      subst hb
      simp only [List.foldlM_nil, pure, Except.pure, Except.ok.injEq] at h
      match stack, hlen, hinv, h with
      | [top], hlen, hinv, h =>
          exact ⟨top, h.symm, (hinv.1 top (List.mem_cons_self _ _)).1⟩
  | cons i rest ih =>
      intro f d stack out ho hb hlen hinv h
      simp only [orderedFromB, Bool.and_eq_true, decide_eq_true_eq] at ho
      obtain ⟨⟨hf1, hf2⟩, hord⟩ := ho
      rw [List.foldlM_cons] at h
      match i, hb, h with
      | .Command (.CommandBegin b) sp, hb, h =>
          simp only [balancedItems] at hb
          rw [show pushItem stack (.Command (.CommandBegin b) sp) =
              .ok (.mk (some b) [] sp :: stack) from rfl] at h
          simp only [bind, Except.bind] at h
          simp only [item_span] at hf1 hf2 hord
          exact ih sp.stop (d + 1) _ out hord hb (by simp [hlen])
            (StackInv.push_begin f stack b sp hinv hf1 hf2) h
      | .Command (.CommandEnd ce) sp, hb, h =>
          simp only [balancedItems, Bool.and_eq_true, decide_eq_true_eq,
            ne_eq] at hb
          obtain ⟨hd0, hb2⟩ := hb
          simp only [item_span] at hf1 hf2 hord
          match stack, hlen, hinv, h with
          | [], hlen, hinv, h => simp at hlen
          | [top], hlen, hinv, h =>
              exfalso
              have h1 : 1 = d + 1 := by simpa using hlen
              exact hd0 (by omega)
          | top :: parent :: rest2, hlen, hinv, h =>
              rw [show pushItem (top :: parent :: rest2)
                  (.Command (.CommandEnd ce) sp) =
                  .ok (.mk parent.decoration
                    (parent.elements ++
                      [.block (.mk top.decoration top.elements
                        (top.span.merge sp))])
                    parent.span :: rest2) from rfl] at h
              simp only [bind, Except.bind] at h
              refine ih sp.stop (d - 1) _ out hord hb2 ?_
                (StackInv.pop_end f top parent rest2 sp hinv hf1 hf2) h
              simp only [List.length_cons] at hlen ⊢
              omega
      | .Command (.SingleCommand sc) sp, hb, h =>
          simp only [balancedItems] at hb
          match stack, hlen, hinv, h with
          | [], hlen, hinv, h => simp at hlen
          | top :: rest2, hlen, hinv, h =>
              rw [show pushItem (top :: rest2)
                  (.Command (.SingleCommand sc) sp) =
                  .ok (.mk top.decoration
                    (top.elements ++
                      [.item (.Command (.SingleCommand sc) sp)])
                    top.span :: rest2) from rfl] at h
              simp only [bind, Except.bind] at h
              refine ih (item_span (.Command (.SingleCommand sc) sp)).stop
                d _ out ?_ hb (by simpa using hlen)
                (StackInv.append_item f top rest2 _ hinv hf1 hf2) h
              simpa [item_span] using hord
      | .Text dt, hb, h =>
          simp only [balancedItems] at hb
          match stack, hlen, hinv, h with
          | [], hlen, hinv, h => simp at hlen
          | top :: rest2, hlen, hinv, h =>
              rw [show pushItem (top :: rest2) (.Text dt) =
                  .ok (.mk top.decoration
                    (top.elements ++ [.item (.Text dt)])
                    top.span :: rest2) from rfl] at h
              simp only [bind, Except.bind] at h
              refine ih (item_span (.Text dt)).stop d _ out ?_ hb
                (by simpa using hlen)
                (StackInv.append_item f top rest2 _ hinv hf1 hf2) h
              simpa [item_span] using hord
      | .Newline sp, hb, h =>
          simp only [balancedItems] at hb
          match stack, hlen, hinv, h with
          | [], hlen, hinv, h => simp at hlen
          | top :: rest2, hlen, hinv, h =>
              rw [show pushItem (top :: rest2) (.Newline sp) =
                  .ok (.mk top.decoration
                    (top.elements ++ [.item (.Newline sp)])
                    top.span :: rest2) from rfl] at h
              simp only [bind, Except.bind] at h
              refine ih (item_span (.Newline sp)).stop d _ out ?_ hb
                (by simpa using hlen)
                (StackInv.append_item f top rest2 _ hinv hf1 hf2) h
              simpa [item_span] using hord
      | .SpecialCharacter sc sp, hb, h =>
          simp only [balancedItems] at hb
          match stack, hlen, hinv, h with
          | [], hlen, hinv, h => simp at hlen
          | top :: rest2, hlen, hinv, h =>
              rw [show pushItem (top :: rest2) (.SpecialCharacter sc sp) =
                  .ok (.mk top.decoration
                    (top.elements ++ [.item (.SpecialCharacter sc sp)])
                    top.span :: rest2) from rfl] at h
              simp only [bind, Except.bind] at h
              refine ih (item_span (.SpecialCharacter sc sp)).stop d _ out
                ?_ hb (by simpa using hlen)
                (StackInv.append_item f top rest2 _ hinv hf1 hf2) h
              simpa [item_span] using hord

/-- Claim C4, amended: on an item sequence whose spans are weakly
ordered in source position and whose begin and end commands are
balanced, every non-root block of the tree the builder accepts has
a span covering the span of each of its children, recursively. -/
theorem C4_coverage_of_balanced (items : List ParsedItem)
    (root : AozoraBlock)
    (ho : orderedFromB 0 items = true)
    (hb : balancedItems items 0 = true)
    (h : parse_blocks items = .ok root) :
    elementsCovered root.elements := by
  unfold parse_blocks at h
  have hinv0 : StackInv 0 [.mk none [] Span.default] := by
    refine ⟨?_, by simp⟩
    intro b hbm
    rcases List.mem_singleton.mp hbm with rfl
    exact ⟨by simp [elementsCovered, AozoraBlock.elements],
      by simp [AozoraBlock.span, Span.default],
      by simp [AozoraBlock.span, Span.default],
      by simp [AozoraBlock.elements]⟩
  split at h
  · cases h
  · case _ e heq =>
      obtain ⟨top, htop, hcov⟩ := foldl_pushItem_covered items 0 0
        [.mk none [] Span.default] [] ho hb rfl hinv0 heq
      cases htop
  · case _ top rest2 heq =>
      obtain ⟨top2, htop, hcov⟩ := foldl_pushItem_covered items 0 0
        [.mk none [] Span.default] (top :: rest2) ho hb rfl hinv0 heq
      injection h with h2
      cases htop
      rw [← h2, fixRootSpan_elements]
      simpa [autoClose] using hcov

/-- Witness for C4_coverage_of_balanced: a balanced, ordered
sequence of a begin command, a text and an end command yields a
root whose single child block's span ⟨0, 12⟩ covers its child. -/
theorem C4_coverage_of_balanced_witness :
    elementsCovered (AozoraBlock.elements (.mk none
      [.block (.mk (some .Yokogumi)
        [.item (.Text ⟨"ab".toList, none, ⟨5, 7⟩⟩)] ⟨0, 12⟩)]
      ⟨0, 12⟩)) := by
  exact C4_coverage_of_balanced
    [.Command (.CommandBegin .Yokogumi) ⟨0, 5⟩,
     .Text ⟨"ab".toList, none, ⟨5, 7⟩⟩,
     .Command (.CommandEnd .Yokogumi) ⟨7, 12⟩]
    (.mk none
      [.block (.mk (some .Yokogumi)
        [.item (.Text ⟨"ab".toList, none, ⟨5, 7⟩⟩)] ⟨0, 12⟩)]
      ⟨0, 12⟩)
    rfl rfl rfl

/-- Claim C2, amended: on every input where the scanner succeeds,
a ruby-gloss token's span ends one past the closing 》 (or at the
end of input when it is missing), but a command token's span ends
AT the closing ］, excluding it: the character at the command
span's end index is the ］ itself, left unconsumed in the input. -/
theorem C2_delimiter_spans (text : List Char)
    (toks : List AozoraToken) (h : parse_aozora text = .ok toks) :
    ∀ t ∈ toks,
      (∀ content sp, t = .Ruby content sp →
          text[sp.stop - 1]? = some '》' ∨ sp.stop = text.length) ∧
      (∀ ct, t = .Command ct → text[ct.span.stop]? = some '］') := by
  intro t ht
  have hg := tokenizeAux_ok_good text.length text 0 toks h t ht
  obtain ⟨_, _, hruby, hcmd⟩ := hg
  refine ⟨?_, ?_⟩
  · intro content sp he
    have hr := hruby content sp he
    simpa using hr
  · intro ct he
    have hc := (hcmd ct he).1
    simpa using hc

/-- Witness for C2_delimiter_spans at the input 漢《か》: the ruby
token's span is ⟨1, 4⟩ and index 3 holds the 》. -/
theorem C2_delimiter_spans_witness :
    ("漢《か》".toList)[4 - 1]? = some '》' ∨
      (4 : Nat) = ("漢《か》".toList).length := by
  have h := C2_delimiter_spans ("漢《か》".toList)
    [.Text ⟨"漢".toList, .Kanji, ⟨0, 1⟩⟩, .Ruby "か".toList ⟨1, 4⟩]
    rfl (.Ruby "か".toList ⟨1, 4⟩) (by simp)
  exact h.1 "か".toList ⟨1, 4⟩ rfl

/-- Claim C7: on every input the scanner either succeeds with a
token list, or fails with UnclosedCommand (the only error of the
error type), and then the error span records a command body opened
by ［＃ whose characters are neither ］ nor whitespace and which
runs into the end of the input or a whitespace character. -/
theorem C7_error_discipline (text : List Char) :
    (∃ toks, parse_aozora text = .ok toks) ∨
    (∃ sp, parse_aozora text = .error (.UnclosedCommand sp) ∧
      ErrGood text 0 sp) := by
  match h : parse_aozora text with
  | .ok toks => exact Or.inl ⟨toks, rfl⟩
  | .error (.UnclosedCommand sp) =>
      exact Or.inr ⟨sp, rfl, tokenizeAux_error_good text.length text 0 sp h⟩

/-- Claim C10: a ［ not immediately followed by ＃ does not open a
command: the scan step emits a plain Text token of kind Other that
begins with the ［ and accumulates the following Other-class run,
and any UnclosedCommand error of the whole scan starts strictly
beyond this position. -/
theorem C10_bracket_text_run (fuel pos : Nat) (rest : List Char)
    (hm : ∀ ys, rest ≠ '＃' :: ys) :
    tokenizeAux (fuel + 1) ('［' :: rest) pos =
      consTok
        (.Text ⟨'［' :: rest.takeWhile is_other, .Other,
          ⟨pos, pos + 1 + (rest.takeWhile is_other).length⟩⟩)
        (tokenizeAux fuel (rest.drop (rest.takeWhile is_other).length)
          (pos + 1 + (rest.takeWhile is_other).length)) ∧
    (∀ sp, tokenizeAux (fuel + 1) ('［' :: rest) pos =
        .error (.UnclosedCommand sp) → pos < sp.start) := by
  have hstep : tokenizeAux (fuel + 1) ('［' :: rest) pos =
      consTok
        (.Text ⟨'［' :: rest.takeWhile is_other, .Other,
          ⟨pos, pos + 1 + (rest.takeWhile is_other).length⟩⟩)
        (tokenizeAux fuel (rest.drop (rest.takeWhile is_other).length)
          (pos + 1 + (rest.takeWhile is_other).length)) := by
    cases rest with
    | nil => simp [tokenizeAux, textRun]
    | cons y ys =>
        have hy : ¬(y = '＃') := fun hyy => hm ys (by rw [hyy])
        simp [tokenizeAux, textRun, hy]
  refine ⟨hstep, ?_⟩
  intro sp h
  rw [hstep] at h
  have hr := consTok_error h
  have hg := tokenizeAux_error_good fuel _ _ sp hr
  have h1 := hg.1
  omega

/-- Witness for C10_bracket_text_run at the input ［ab starting at
position 0: the step emits the Other-class text token ［ab. -/
theorem C10_bracket_text_run_witness :
    tokenizeAux 3 ('［' :: "ab".toList) 0 =
      consTok
        (.Text ⟨'［' :: ("ab".toList).takeWhile is_other, .Other,
          ⟨0, 0 + 1 + (("ab".toList).takeWhile is_other).length⟩⟩)
        (tokenizeAux 2
          (("ab".toList).drop (("ab".toList).takeWhile is_other).length)
          (0 + 1 + (("ab".toList).takeWhile is_other).length)) := by
  exact (C10_bracket_text_run 2 0 "ab".toList
    (by intro ys hcon; simp at hcon)).1

end Kartana

